import Mathlib

/-!
Shallow embedding of the Group composite-shape subsystem of the fabric.js
repository (src/src/shapes/group.class.ts: the `Group` class and the
`FabricObjectAncestryMixin`), developed to check the natural-language
specification against the code.

The embedding has three parts:
* a *membership model* (`Fabric.World`): the object tree as parent pointers
  (`group`, `canvas`) plus each group's ordered child list (`_objects`), its
  selection list (`_activeObjects`) and dirty flag, with the membership
  operations `add` / `insertAt` / `remove` / `removeAll` translated from the
  source; geometry-only calls in those code paths (`applyTransformToObject`,
  `setCoords`, `_applyLayoutStrategy`, event firing) do not touch any of the
  modelled fields (see group.class.ts:502-570) and are noted where they occur;
* a *layout model* (`Fabric.GState`): the layout pipeline
  (`_applyLayoutStrategy`, `getLayoutStrategyResult`, `prepareBoundingBox`,
  `prepareInitialBoundingBox`, `getObjectsBoundingBox`) over exact rational
  arithmetic, with the base drawable-object collaborator (out of scope per the
  spec) abstracted as per-object data;
* the *ancestry resolver* (`getAncestors`, `isDescendantOf`,
  `findCommonAncestors`, `isInFrontOf`) from the ancestry mixin.

Parent-chain walks in the source are `while` loops that terminate exactly when
the chain is finite; the model makes them total with an explicit fuel bound
stored in the world (`World.fuel`), which concrete witnesses instantiate large
enough for their trees.
-/

namespace Fabric

/-- Object node identifiers. -/
abbrev NodeId := Nat

/-- Canvas container identifiers (kept in a namespace separate from nodes). -/
abbrev CanvasId := Nat

/-- A member of a parent chain: either an object node or a canvas container
(`TAncestor = FabricObject | StaticCanvas` in the source). -/
inductive Entity where
  | obj (id : NodeId)
  | canvas (id : CanvasId)
deriving DecidableEq, Repr

/-- The object tree, projected onto the fields the membership operations and the
ancestry resolver read or write: parent pointers (`object.group`,
`object.canvas`), each group's `_objects` child list, each canvas' `_objects`
list, each group's `_activeObjects` list and `dirty` flag, and the canvas'
active object (read by `_enterGroup` via `canvas.getActiveObject()`).
`fuel` bounds parent-chain walks (see the file header). -/
structure World where
  fuel : Nat
  groupOf : NodeId → Option NodeId
  canvasOf : NodeId → Option CanvasId
  objectsOf : NodeId → List NodeId
  canvasObjectsOf : CanvasId → List NodeId
  activeOf : NodeId → List NodeId
  canvasActiveOf : CanvasId → Option NodeId
  dirtyOf : NodeId → Bool

/-- One step up a parent chain: `parent.group || (strict ? undefined :
parent.canvas)` (ancestry mixin, `getAncestors`); a canvas has neither a
`group` nor a `canvas` property, so the walk stops there. -/
def World.parentOf (w : World) (strict : Bool) : Entity → Option Entity
  | .obj n =>
    match w.groupOf n with
    | some g => some (.obj g)
    | none => if strict then none else (w.canvasOf n).map .canvas
  | .canvas _ => none

/-- Fuel-bounded loop of `isDescendantOf` (ancestry mixin): walk the non-strict
parent chain; return true on meeting `target`, false on reaching a canvas
(`parent instanceof fabric.StaticCanvas`) or the end of the chain. -/
def World.isDescendantOfAux (w : World) (target : Entity) :
    Nat → Option Entity → Bool
  | _, none => false
  | 0, some _ => false
  | fuel + 1, some parent =>
    if parent = target then true
    else
      match parent with
      | .canvas _ => false
      | .obj _ => w.isDescendantOfAux target fuel (w.parentOf false parent)

/-- `isDescendantOf(target)`: starts from `this.group || this.canvas`. -/
def World.isDescendantOf (w : World) (self : NodeId) (target : Entity) : Bool :=
  w.isDescendantOfAux target w.fuel (w.parentOf false (.obj self))

/-- Fuel-bounded loop of `getAncestors`: push each parent, in bottom-to-top
order, until the chain ends. -/
def World.ancestorsAux (w : World) (strict : Bool) :
    Nat → Option Entity → List Entity
  | _, none => []
  | 0, some _ => []
  | fuel + 1, some parent =>
    parent :: w.ancestorsAux strict fuel (w.parentOf strict parent)

/-- `getAncestors(strict)`: the parent chain of a node, bottom to top. -/
def World.getAncestors (w : World) (self : NodeId) (strict : Bool) :
    List Entity :=
  w.ancestorsAux strict w.fuel (w.parentOf strict (.obj self))

/-- `canEnterGroup(object)` (group.class.ts:236-252): rejects the group itself
or one of its ancestors (`object === this || this.isDescendantOf(object)`,
the cycle guard) and a node already in `_objects` (the duplicate guard); the
rejection only logs a dev-mode warning, it never throws. -/
def World.canEnterGroup (w : World) (g o : NodeId) : Bool :=
  if o = g ∨ w.isDescendantOf g (.obj o) then false
  else if o ∈ w.objectsOf g then false
  else true

/-- `_filterObjectsBeforeEnteringGroup(objects)` (group.class.ts:137-142):
`objects.filter((object, index, array) => this.canEnterGroup(object) &&
array.indexOf(object) === index)`; `indexOf` returns the index of the first
occurrence, so the second conjunct keeps only first occurrences. -/
def World.filterObjectsBeforeEnteringGroup (w : World) (g : NodeId)
    (objects : List NodeId) : List NodeId :=
  (objects.enum.filter fun p =>
    w.canEnterGroup g p.2 && objects.indexOf p.2 == p.1).map Prod.snd

/-- Membership-relevant effect of `_exitGroup(object, removeParentTransform)`
(group.class.ts:310-327): clear `object.group`; the transform reconstitution
(`applyTransformToObject`, `object.setCoords()`) and the event unsubscription
(`_watchObject(false, object)`) touch no modelled field; finally splice the
object out of `_activeObjects` if present (`indexOf` + `splice(index, 1)`
removes the first occurrence). -/
def World.exitGroupCore (w : World) (g o : NodeId) : World :=
  let w1 := { w with groupOf := Function.update w.groupOf o none }
  let act := w1.activeOf g
  let act' := if 0 < act.length ∧ o ∈ act then act.erase o else act
  { w1 with activeOf := Function.update w1.activeOf g act' }

/-- `exitGroup(object, removeParentTransform)` (group.class.ts:300-303):
`_exitGroup` then `object._set('canvas', undefined)`. -/
def World.exitGroup (w : World) (g o : NodeId) : World :=
  let w1 := w.exitGroupCore g o
  { w1 with canvasOf := Function.update w1.canvasOf o none }

/-- `_onObjectRemoved(object)` (group.class.ts:365-368): `exitGroup` then
`object.fire('removed', ...)` (event dispatch, no modelled field). -/
def World.onObjectRemoved (w : World) (g o : NodeId) : World :=
  w.exitGroup g o

/-- Modelled from the spec: the ordered-collection mixin's
`remove(objectsToRemove, callback)` is not under src/; per the spec it
"removes listed nodes that are direct children" and "returns the nodes actually
removed", calling the per-object callback for each node found: for each listed
object, if present in `_objects`, splice out its first occurrence and run the
callback; otherwise skip it. -/
def World.collectionRemove (w : World) (g : NodeId) :
    List NodeId → World × List NodeId
  | [] => (w, [])
  | o :: rest =>
    if o ∈ w.objectsOf g then
      let erased := Function.update w.objectsOf g ((w.objectsOf g).erase o)
      let w1 := { w with objectsOf := erased }
      let w2 := w1.onObjectRemoved g o
      let res := w2.collectionRemove g rest
      (res.1, o :: res.2)
    else
      w.collectionRemove g rest

/-- `_onAfterObjectsChange(type, targets)` (group.class.ts:334-340):
`_applyLayoutStrategy` mutates only geometry (width/height/left/top of the
group, its children and clip path: group.class.ts:502-570), never `_objects`
or `group` pointers, so its membership projection is the identity; then
`this._set('dirty', true)`. -/
def World.onAfterObjectsChange (w : World) (g : NodeId) : World :=
  { w with dirtyOf := Function.update w.dirtyOf g true }

/-- `remove(...objects)` (group.class.ts:170-174): collection-mixin remove with
the `_onObjectRemoved` callback, then `_onAfterObjectsChange('removed',
removed)`; returns the removed objects. -/
def World.remove (w : World) (g : NodeId) (objects : List NodeId) :
    World × List NodeId :=
  let res := w.collectionRemove g objects
  (res.1.onAfterObjectsChange g, res.2)

/-- Membership-relevant effect of `_enterGroup(object, removeParentTransform)`
(group.class.ts:273-293): the plane conversion (`applyTransformToObject`) and
`setCoords` touch no modelled field; set `object.group = this` and
`object.canvas = this.canvas`; `_watchObject` (event subscription) touches no
modelled field; push the object onto `_activeObjects` when the canvas' active
object is the object itself or an ancestor of it. -/
def World.enterGroupCore (w : World) (g o : NodeId) : World :=
  let w1 := { w with groupOf := Function.update w.groupOf o (some g) }
  let w2 := { w1 with canvasOf := Function.update w1.canvasOf o (w.canvasOf g) }
  let activeObject := match w.canvasOf g with
    | some c => w.canvasActiveOf c
    | none => none
  let act' := match activeObject with
    | some a =>
      if a = o ∨ w2.isDescendantOf o (.obj a) then w2.activeOf g ++ [o]
      else w2.activeOf g
    | none => w2.activeOf g
  { w2 with activeOf := Function.update w2.activeOf g act' }

/-- `enterGroup(object, removeParentTransform)` (group.class.ts:260-266): if the
object currently belongs to another group, first run that group's full
`remove` on it, then `_enterGroup`. -/
def World.enterGroup (w : World) (g o : NodeId) : World :=
  let w1 := match w.groupOf o with
    | some h => (w.remove h [o]).1
    | none => w
  w1.enterGroupCore g o

/-- `_onObjectAdded(object)` (group.class.ts:346-349): `enterGroup(object,
true)` then `object.fire('added', ...)` (no modelled field). -/
def World.onObjectAdded (w : World) (g o : NodeId) : World :=
  w.enterGroup g o

/-- Modelled from the spec: the ordered-collection mixin's `add(objects,
callback)` is not under src/; per the spec accepted nodes "are appended"
and the per-object callback runs "for each": push all objects onto `_objects`,
then run the callback on each in order. -/
def World.collectionAdd (w : World) (g : NodeId) (objects : List NodeId) :
    World :=
  let pushed := Function.update w.objectsOf g (w.objectsOf g ++ objects)
  let w1 := { w with objectsOf := pushed }
  objects.foldl (fun acc o => acc.onObjectAdded g o) w1

/-- Modelled from the spec: the ordered-collection mixin's `insertAt(objects,
index, callback)` is not under src/; per the spec accepted nodes "are
inserted" at the index (a splice), then the per-object callback runs for
each. -/
def World.collectionInsertAt (w : World) (g : NodeId) (objects : List NodeId)
    (index : Nat) : World :=
  let old := w.objectsOf g
  let spliced := Function.update w.objectsOf g
    (old.take index ++ objects ++ old.drop index)
  let w1 := { w with objectsOf := spliced }
  objects.foldl (fun acc o => acc.onObjectAdded g o) w1

/-- `add(...objects)` (group.class.ts:148-152): filter the arguments through
`_filterObjectsBeforeEnteringGroup`, collection-mixin add with the
`_onObjectAdded` callback, then `_onAfterObjectsChange('added', allowed)`. -/
def World.add (w : World) (g : NodeId) (objects : List NodeId) : World :=
  let allowedObjects := w.filterObjectsBeforeEnteringGroup g objects
  let w1 := w.collectionAdd g allowedObjects
  w1.onAfterObjectsChange g

/-- `insertAt(objects, index)` (group.class.ts:159-163): like `add` but
splicing at `index`. -/
def World.insertAt (w : World) (g : NodeId) (objects : List NodeId)
    (index : Nat) : World :=
  let allowedObjects := w.filterObjectsBeforeEnteringGroup g objects
  let w1 := w.collectionInsertAt g allowedObjects index
  w1.onAfterObjectsChange g

/-- `removeAll()` (group.class.ts:180-183): clear `_activeObjects`, then
`remove` every current child (a snapshot: `this._objects.slice()`). -/
def World.removeAll (w : World) (g : NodeId) : World × List NodeId :=
  let w1 := { w with activeOf := Function.update w.activeOf g [] }
  w1.remove g (w1.objectsOf g)

/-- The membership consistency invariant: child lists are duplicate-free and a
node is in a group's child list exactly when its `group` pointer names that
group. -/
def World.Inv (w : World) : Prop :=
  (∀ g, (w.objectsOf g).Nodup) ∧
  (∀ o g, o ∈ w.objectsOf g ↔ w.groupOf o = some g)


/-- `__objectSelectionMonitor(selected, opt)` (group.class.ts:200-213): on a
`selected` event push the target onto `_activeObjects` unconditionally and set
`dirty`; on a `deselected` event, if the collection is non-empty and contains
the target, splice out its first occurrence and set `dirty`, otherwise do
nothing. -/
def World.objectSelectionMonitor (w : World) (g : NodeId) (selected : Bool)
    (target : NodeId) : World :=
  if selected then
    { w with activeOf := Function.update w.activeOf g (w.activeOf g ++ [target]),
             dirtyOf := Function.update w.dirtyOf g true }
  else if 0 < (w.activeOf g).length then
    if target ∈ w.activeOf g then
      { w with
        activeOf := Function.update w.activeOf g ((w.activeOf g).erase target),
        dirtyOf := Function.update w.dirtyOf g true }
    else w
  else w

/-- The record returned by `findCommonAncestors` (ancestry mixin):
`common` shared ancestor chain from the nearest common ancestor up, `fork` the
part of `self`'s chain below it, `otherFork` the same for `other`. -/
structure AncestryComparison where
  common : List Entity
  fork : List Entity
  otherFork : List Entity
deriving DecidableEq, Repr

/-- The inner `for j` loop of `findCommonAncestors`: scan `otherAncestors`
checking, at each position, first `this === otherAncestors[j]`, then
`ancestor === otherAncestors[j]`; return the prefix before the first hit,
tagged with which check hit (`inl` = the self check, `inr` = the pair
check). -/
def innerScan (self a : Entity) : List Entity →
    Option (Sum (List Entity) (List Entity))
  | [] => none
  | x :: xs =>
    if x = self then some (.inl [])
    else if x = a then some (.inr [])
    else
      match innerScan self a xs with
      | some (.inl pre) => some (.inl (x :: pre))
      | some (.inr pre) => some (.inr (x :: pre))
      | none => none

/-- The outer `for i` loop of `findCommonAncestors`: `pre` is the prefix of
`self`'s ancestor list already scanned (`ancestors.slice(0, i)`), `rest` the
remainder; each iteration first checks `ancestor === other`, then runs the
inner scan of `otherAncestors`. -/
def fcaLoop (self other : Entity) (oanc : List Entity) :
    List Entity → List Entity → AncestryComparison
  | pre, [] =>
    { common := [], fork := self :: pre, otherFork := other :: oanc }
  | pre, a :: rest =>
    if a = other then
      { common := a :: rest, fork := self :: pre, otherFork := [] }
    else
      match innerScan self a oanc with
      | some (.inl opre) =>
        { common := self :: (pre ++ a :: rest), fork := [],
          otherFork := other :: opre }
      | some (.inr opre) =>
        { common := a :: rest, fork := self :: pre,
          otherFork := other :: opre }
      | none => fcaLoop self other oanc (pre ++ [a]) rest

/-- `findCommonAncestors(other, strict)` (ancestry mixin): special case 1
(`this === other`), special case 2 (`this` has no ancestors and is the topmost
ancestor of `other`), then the double scan. -/
def World.findCommonAncestors (w : World) (self other : NodeId)
    (strict : Bool) : AncestryComparison :=
  if self = other then
    { common := .obj self :: w.getAncestors self strict,
      fork := [], otherFork := [] }
  else
    let ancestors := w.getAncestors self strict
    let otherAncestors := w.getAncestors other strict
    if ancestors.length = 0 ∧ 0 < otherAncestors.length ∧
        otherAncestors.getLast? = some (.obj self) then
      { common := [.obj self], fork := [],
        otherFork := .obj other ::
          otherAncestors.take (otherAncestors.length - 1) }
    else
      fcaLoop (.obj self) (.obj other) otherAncestors [] ancestors

/-- The child list of an entity (`_objects` of a group or of the canvas). -/
def World.childListOf (w : World) : Entity → List NodeId
  | .obj n => w.objectsOf n
  | .canvas c => w.canvasObjectsOf c

/-- `container._objects.indexOf(e)` where `e` is the result of `fork.pop()`
(so possibly `undefined`, which `indexOf` maps to `-1`); a canvas entity never
occurs in a child list. -/
def World.entityIndexIn (w : World) (container : Entity) :
    Option Entity → Int
  | some (.obj n) =>
    if n ∈ w.childListOf container then ((w.childListOf container).indexOf n : Int)
    else -1
  | some (.canvas _) => -1
  | none => -1

/-- `isInFrontOf(other)` (ancestry mixin): `undefined` for `self === other`;
`true`/`false` when one node sits inside the other's fork; `undefined` when
there is no common ancestor; otherwise compare the indices of the two fork
heads (`fork.pop()`) in the first common ancestor's child list:
`thisIndex > -1 && thisIndex > otherIndex`. -/
def World.isInFrontOf (w : World) (self other : NodeId) : Option Bool :=
  if self = other then none
  else
    let ancestorData := w.findCommonAncestors self other false
    if Entity.obj other ∈ ancestorData.fork then some true
    else if Entity.obj self ∈ ancestorData.otherFork then some false
    else
      match ancestorData.common.head? with
      | none => none
      | some firstCommonAncestor =>
        let thisIndex :=
          w.entityIndexIn firstCommonAncestor ancestorData.fork.getLast?
        let otherIndex :=
          w.entityIndexIn firstCommonAncestor ancestorData.otherFork.getLast?
        some (decide (-1 < thisIndex ∧ otherIndex < thisIndex))

/-- First occurrence scan: the prefix of the list before the first occurrence
of `x`, if `x` occurs. -/
def firstMatch (x : Entity) : List Entity → Option (List Entity)
  | [] => none
  | y :: ys => if y = x then some [] else (firstMatch x ys).map (y :: ·)

/-- Modelled from the spec (C8 wording, for comparison against the source): the
general case checks "is self itself one of other's ancestors" once, before the
nested double loop; the double loop then scans self's ancestor list in order
against other's, self's order taking priority. Special cases 1 and 2 are as in
the source. -/
def specScanLoop (self other : Entity) (oanc : List Entity) :
    List Entity → List Entity → AncestryComparison
  | pre, [] =>
    { common := [], fork := self :: pre, otherFork := other :: oanc }
  | pre, a :: rest =>
    if a = other then
      { common := a :: rest, fork := self :: pre, otherFork := [] }
    else
      match firstMatch a oanc with
      | some opre =>
        { common := a :: rest, fork := self :: pre,
          otherFork := other :: opre }
      | none => specScanLoop self other oanc (pre ++ [a]) rest

/-- Modelled from the spec (C8 wording): `findCommonAncestors` with the
self-in-other's-ancestors check hoisted before the double loop. -/
def specFindCommonAncestors (w : World) (self other : NodeId)
    (strict : Bool) : AncestryComparison :=
  if self = other then
    { common := .obj self :: w.getAncestors self strict,
      fork := [], otherFork := [] }
  else
    let ancestors := w.getAncestors self strict
    let otherAncestors := w.getAncestors other strict
    if ancestors.length = 0 ∧ 0 < otherAncestors.length ∧
        otherAncestors.getLast? = some (.obj self) then
      { common := [.obj self], fork := [],
        otherFork := .obj other ::
          otherAncestors.take (otherAncestors.length - 1) }
    else
      match firstMatch (.obj self) otherAncestors with
      | some opre =>
        { common := .obj self :: ancestors, fork := [],
          otherFork := .obj other :: opre }
      | none => specScanLoop (.obj self) (.obj other) otherAncestors [] ancestors

/-- A 2-D point with exact rational coordinates. -/
structure Pt where
  x : ℚ
  y : ℚ
deriving DecidableEq, Repr

instance : Add Pt := ⟨fun a b => ⟨a.x + b.x, a.y + b.y⟩⟩

instance : Sub Pt := ⟨fun a b => ⟨a.x - b.x, a.y - b.y⟩⟩

/-- A 2-D affine transform in fabric's array layout `[a, b, c, d, e, f]`:
`x' = a x + c y + e`, `y' = b x + d y + f`. -/
structure TMat where
  a : ℚ
  b : ℚ
  c : ℚ
  d : ℚ
  e : ℚ
  f : ℚ
deriving DecidableEq, Repr

/-- `util.transformPoint(p, t, ignoreOffset)`. -/
def transformPoint (p : Pt) (t : TMat) (ignoreOffset : Bool) : Pt :=
  if ignoreOffset then ⟨t.a * p.x + t.c * p.y, t.b * p.x + t.d * p.y⟩
  else ⟨t.a * p.x + t.c * p.y + t.e, t.b * p.x + t.d * p.y + t.f⟩

/-- `util.invertTransform(t)` (in ℚ, `1 / 0 = 0`; no claim evaluates it on a
singular matrix). -/
def invertTransform (t : TMat) : TMat :=
  let a := 1 / (t.a * t.d - t.b * t.c)
  let r : TMat := ⟨a * t.d, -a * t.b, -a * t.c, a * t.a, 0, 0⟩
  let o := transformPoint ⟨t.e, t.f⟩ r true
  ⟨r.a, r.b, r.c, r.d, -o.x, -o.y⟩

/-- A drawable object as the layout pipeline consumes it. `left`/`top` are the
fields the pipeline writes (`_adjustObjectPosition`); the base drawable-object
collaborator (out of scope per the spec) is abstracted as per-object data:
`getRelativeCenterPoint()` is `(left + centerOffX, top + centerOffY)` (the
origin-convention offset is position-independent), `_getTransformedDimensions()`
is `(dimX, dimY)`, and `angle` (degrees), `skewX`, `skewY`, `width`, `height`
are the raw properties. -/
structure LObj where
  left : ℚ
  top : ℚ
  width : ℚ
  height : ℚ
  centerOffX : ℚ
  centerOffY : ℚ
  dimX : ℚ
  dimY : ℚ
  angle : ℚ
  skewX : ℚ
  skewY : ℚ
deriving DecidableEq, Repr

/-- `getRelativeCenterPoint()` of a modelled object. -/
def LObj.relCenter (o : LObj) : Pt := ⟨o.left + o.centerOffX, o.top + o.centerOffY⟩

/-- `_adjustObjectPosition(object, diff)` (group.class.ts:487-492):
`object.set({left: left + diff.x, top: top + diff.y})`. -/
def adjustObjectPosition (o : LObj) (diff : Pt) : LObj :=
  { o with left := o.left + diff.x, top := o.top + diff.y }

/-- An attached clip path: the object plus its `absolutePositioned` flag and
its absolute center (`getCenterPoint()`, a base-object query, as data). -/
structure ClipPathInfo where
  obj : LObj
  absolutePositioned : Bool
  absCenterX : ℚ
  absCenterY : ℚ
deriving DecidableEq, Repr

/-- The group state the layout pipeline reads and writes. `self` is the
group's own drawable data; `linA..linD` are the linear (position-independent)
part of `calcOwnMatrix()`; `parentMatrix` is `this.group.calcTransformMatrix()`
when the group is nested; `dimsFor w h` is
`_getTransformedDimensions({width: w, height: h, strokeWidth: 0})` and
`strokeVector` is `_getTransformedDimensions({width: 0, height: 0})` (base
drawable-object queries, as data); `originXr`/`originYr` are the resolved
fractional origin values. -/
structure GState where
  self : LObj
  layout : String
  objects : List LObj
  clipPath : Option ClipPathInfo
  firstLayoutDone : Bool
  linA : ℚ
  linB : ℚ
  linC : ℚ
  linD : ℚ
  parentMatrix : Option TMat
  dimsFor : ℚ → ℚ → Pt
  strokeVector : Pt
  originXr : ℚ
  originYr : ℚ

/-- `calcOwnMatrix()`: linear part from rotation/scale/skew, translation part
the group's own relative center. -/
def GState.calcOwnMatrix (g : GState) : TMat :=
  ⟨g.linA, g.linB, g.linC, g.linD, g.self.relCenter.x, g.self.relCenter.y⟩

/-- A layout result (`LayoutResult` in the source): a JS object whose
`correctionX/Y` and `offsetX/Y` fields may be absent (`Option`); an absent
field read through `|| 0` becomes `0`, exactly as JS `undefined || 0` (and
`NaN || 0`) do. -/
structure LayoutResult where
  centerX : ℚ
  centerY : ℚ
  width : ℚ
  height : ℚ
  correctionX : Option ℚ
  correctionY : Option ℚ
  offsetX : Option ℚ
  offsetY : Option ℚ
deriving DecidableEq, Repr

/-- A caller-supplied partial layout result (`context.context` of an
imperative trigger). -/
structure PartialLayout where
  centerX : Option ℚ
  centerY : Option ℚ
  width : Option ℚ
  height : Option ℚ
  correctionX : Option ℚ
  correctionY : Option ℚ
deriving DecidableEq, Repr

/-- `Object.assign(base, partial)`: a present field of the partial record wins. -/
def mergePartial (base : LayoutResult) (p : PartialLayout) : LayoutResult :=
  { centerX := p.centerX.getD base.centerX,
    centerY := p.centerY.getD base.centerY,
    width := p.width.getD base.width,
    height := p.height.getD base.height,
    correctionX := match p.correctionX with
      | some v => some v
      | none => base.correctionX,
    correctionY := match p.correctionY with
      | some v => some v
      | none => base.correctionY,
    offsetX := base.offsetX,
    offsetY := base.offsetY }

/-- The `{}` base of `getObjectsBoundingBox(objects) || {}` in branches where
the source then reads numeric fields off it; a claim never evaluates these
branches on an empty child list (in JS the missing fields would propagate as
`undefined`/`NaN`). -/
def emptyLayoutResult : LayoutResult :=
  { centerX := 0, centerY := 0, width := 0, height := 0,
    correctionX := none, correctionY := none, offsetX := none, offsetY := none }

/-- Construction options as `prepareInitialBoundingBox` reads them
(`typeof options.left === 'number'` is presence of the field). -/
structure InitOptions where
  angle : Option ℚ
  skewX : Option ℚ
  skewY : Option ℚ
  left : Option ℚ
  top : Option ℚ
  width : Option ℚ
  height : Option ℚ
deriving DecidableEq, Repr

/-- The layout context (`LayoutContext` in the source): the trigger type, the
`targets` payload of added/removed triggers, the construction options of an
initialization trigger, the `objectsRelativeToGroup` flag, and the partial
result of an imperative trigger. -/
structure LayoutContext where
  type : String
  targets : List LObj
  options : Option InitOptions
  objectsRelativeToGroup : Bool
  imperativeContext : Option PartialLayout

/-- One accumulation step of `getObjectsBoundingBox` (group.class.ts:775-796):
take the child's relative center and half transformed dimensions, expand by
the rotated-rectangle bound when `object.angle` is non-zero
(`cosD`/`sinD` stand for `cos ∘ degreesToRadians` / `sin ∘ degreesToRadians`
of the util module), then initialize or extend the running min/max corners. -/
def bboxStep (cosD sinD : ℚ → ℚ) (acc : Option (Pt × Pt)) (o : LObj) :
    Option (Pt × Pt) :=
  let objCenter := o.relCenter
  let sizeVector0 : Pt := ⟨o.dimX / 2, o.dimY / 2⟩
  let sizeVector := if o.angle ≠ 0 then
      let sinValue := |sinD o.angle|
      let cosValue := |cosD o.angle|
      (⟨sizeVector0.x * cosValue + sizeVector0.y * sinValue,
        sizeVector0.x * sinValue + sizeVector0.y * cosValue⟩ : Pt)
    else sizeVector0
  let a := objCenter - sizeVector
  let b := objCenter + sizeVector
  match acc with
  | none => some (⟨min a.x b.x, min a.y b.y⟩, ⟨max a.x b.x, max a.y b.y⟩)
  | some (mn, mx) =>
    some (⟨min mn.x (min a.x b.x), min mn.y (min a.y b.y)⟩,
          ⟨max mx.x (max a.x b.x), max mx.y (max a.y b.y)⟩)

/-- `getObjectsBoundingBox(objects, ignoreOffset)` (group.class.ts:770-812):
`null` on an empty list; otherwise accumulate min/max corners, then
`size = max - min`, `relativeCenter` the midpoint (or half the size when
`ignoreOffset`), and send `min` and `relativeCenter` through `calcOwnMatrix()`
as `offset` and `center`. -/
def getObjectsBoundingBox (cosD sinD : ℚ → ℚ) (g : GState)
    (objects : List LObj) (ignoreOffset : Bool) : Option LayoutResult :=
  match objects.foldl (bboxStep cosD sinD) none with
  | none => none
  | some (mn, mx) =>
    let size := mx - mn
    let relativeCenter := if ignoreOffset then (⟨size.x / 2, size.y / 2⟩ : Pt)
      else ⟨(mn.x + mx.x) / 2, (mn.y + mx.y) / 2⟩
    let offset := transformPoint mn g.calcOwnMatrix false
    let center := transformPoint relativeCenter g.calcOwnMatrix false
    some { offsetX := some offset.x, offsetY := some offset.y,
           centerX := center.x, centerY := center.y,
           width := size.x, height := size.y,
           correctionX := none, correctionY := none }

/-- `prepareInitialBoundingBox(layoutDirective, objects, context)`
(group.class.ts:697-762), field by field over ℚ; `this.left`, `this.top`,
`this.width`, `this.height` are `g.self` fields (the constructor has already
applied the options). -/
def prepareInitialBoundingBox (cosD sinD : ℚ → ℚ) (g : GState)
    (objects : List LObj) (context : LayoutContext) : Option LayoutResult :=
  let options := context.options.getD ⟨none, none, none, none, none, none, none⟩
  let hasX := options.left.isSome
  let hasY := options.top.isSome
  let hasWidth := options.width.isSome
  let hasHeight := options.height.isSome
  if (hasX ∧ hasY ∧ hasWidth ∧ hasHeight ∧ context.objectsRelativeToGroup) ∨
      objects = [] then
    none
  else
    let bbox := getObjectsBoundingBox cosD sinD g objects false
    let bboxWidth := match bbox with | some b => b.width | none => 0
    let bboxHeight := match bbox with | some b => b.height | none => 0
    let bboxCenterX := match bbox with | some b => b.centerX | none => 0
    let bboxCenterY := match bbox with | some b => b.centerY | none => 0
    let width := if hasWidth then g.self.width else bboxWidth
    let height := if hasHeight then g.self.height else bboxHeight
    let calculatedCenter : Pt := ⟨bboxCenterX, bboxCenterY⟩
    let origin : Pt := ⟨g.originXr, g.originYr⟩
    let size : Pt := ⟨width, height⟩
    let strokeWidthVector := g.strokeVector
    let sizeAfter := g.dimsFor width height
    let bboxSizeAfter := g.dimsFor bboxWidth bboxHeight
    let rotationCorrection : Pt := ⟨0, 0⟩
    let originT : Pt := ⟨origin.x + 1/2, origin.y + 1/2⟩
    let originCorrection : Pt := ⟨sizeAfter.x * originT.x, sizeAfter.y * originT.y⟩
    let centerCorrection : Pt :=
      ⟨if hasWidth then bboxSizeAfter.x / 2 else originCorrection.x,
       if hasHeight then bboxSizeAfter.y / 2 else originCorrection.y⟩
    let center : Pt :=
      ⟨if hasX then g.self.left - (sizeAfter.x + strokeWidthVector.x) * origin.x
        else calculatedCenter.x - centerCorrection.x,
       if hasY then g.self.top - (sizeAfter.y + strokeWidthVector.y) * origin.y
        else calculatedCenter.y - centerCorrection.y⟩
    let offsetCorrection : Pt :=
      (⟨if hasX then
          center.x - calculatedCenter.x + bboxSizeAfter.x * (if hasWidth then 1/2 else 0)
        else
          -(if hasWidth then (sizeAfter.x - strokeWidthVector.x) * (1/2)
            else sizeAfter.x * originT.x),
        if hasY then
          center.y - calculatedCenter.y + bboxSizeAfter.y * (if hasHeight then 1/2 else 0)
        else
          -(if hasHeight then (sizeAfter.y - strokeWidthVector.y) * (1/2)
            else sizeAfter.y * originT.y)⟩ : Pt) + rotationCorrection
    let correction : Pt :=
      (⟨if hasWidth then -sizeAfter.x / 2 else 0,
        if hasHeight then -sizeAfter.y / 2 else 0⟩ : Pt) + offsetCorrection
    some { centerX := center.x, centerY := center.y,
           correctionX := some correction.x, correctionY := some correction.y,
           width := size.x, height := size.y,
           offsetX := none, offsetY := none }

/-- `prepareBoundingBox(layoutDirective, objects, context)`
(group.class.ts:674-687): initialization goes to the initial bounding box;
an imperative trigger with a caller context merges it over the measured box;
anything else is the plain measured box. -/
def prepareBoundingBox (cosD sinD : ℚ → ℚ) (g : GState)
    (objects : List LObj) (context : LayoutContext) : Option LayoutResult :=
  if context.type = "initialization" then
    prepareInitialBoundingBox cosD sinD g objects context
  else
    match context.type == "imperative", context.imperativeContext with
    | true, some pc =>
      some (mergePartial
        ((getObjectsBoundingBox cosD sinD g objects false).getD emptyLayoutResult)
        pc)
    | _, _ => getObjectsBoundingBox cosD sinD g objects false

/-- `getLayoutStrategyResult(layoutDirective, objects, context)`
(group.class.ts:597-663), branch for branch: the `fit-content-lazy` added
shortcut (bounding box of the added targets plus the group itself), the
`fit-content`/`fit-content-lazy`/`fixed`-on-initialization-or-imperative
branch, the clip-path branch (absolute and relative variants), the svg
branch, and otherwise no result. -/
def getLayoutStrategyResult (cosD sinD : ℚ → ℚ) (g : GState)
    (layoutDirective : String) (objects : List LObj)
    (context : LayoutContext) : Option LayoutResult :=
  if layoutDirective = "fit-content-lazy" ∧ context.type = "added" ∧
      context.targets.length < objects.length then
    let addedObjects := context.targets ++ [g.self]
    prepareBoundingBox cosD sinD g addedObjects context
  else if layoutDirective = "fit-content" ∨ layoutDirective = "fit-content-lazy" ∨
      (layoutDirective = "fixed" ∧
        (context.type = "initialization" ∨ context.type = "imperative")) then
    prepareBoundingBox cosD sinD g objects context
  else
    match layoutDirective == "clip-path", g.clipPath with
    | true, some clip =>
      let clipPathSizeAfter : Pt := ⟨clip.obj.dimX, clip.obj.dimY⟩
      if clip.absolutePositioned ∧
          (context.type = "initialization" ∨ context.type = "layout_change") then
        let clipPathCenter := match g.parentMatrix with
          | some m =>
            transformPoint ⟨clip.absCenterX, clip.absCenterY⟩ (invertTransform m) false
          | none => (⟨clip.absCenterX, clip.absCenterY⟩ : Pt)
        some { centerX := clipPathCenter.x, centerY := clipPathCenter.y,
               width := clipPathSizeAfter.x, height := clipPathSizeAfter.y,
               correctionX := none, correctionY := none,
               offsetX := none, offsetY := none }
      else if ¬clip.absolutePositioned then
        let clipPathCenter :=
          transformPoint clip.obj.relCenter g.calcOwnMatrix true
        if context.type = "initialization" ∨ context.type = "layout_change" then
          let bbox := prepareBoundingBox cosD sinD g objects context
          let bboxCenterX := match bbox with | some b => b.centerX | none => 0
          let bboxCenterY := match bbox with | some b => b.centerY | none => 0
          let center : Pt := ⟨bboxCenterX, bboxCenterY⟩
          let bboxCorrX := match bbox with | some b => b.correctionX | none => none
          let bboxCorrY := match bbox with | some b => b.correctionY | none => none
          some { centerX := center.x + clipPathCenter.x,
                 centerY := center.y + clipPathCenter.y,
                 correctionX := bboxCorrX.map (fun v => v - clipPathCenter.x),
                 correctionY := bboxCorrY.map (fun v => v - clipPathCenter.y),
                 width := clip.obj.width, height := clip.obj.height,
                 offsetX := none, offsetY := none }
        else
          let center := g.self.relCenter
          some { centerX := center.x + clipPathCenter.x,
                 centerY := center.y + clipPathCenter.y,
                 width := clipPathSizeAfter.x, height := clipPathSizeAfter.y,
                 correctionX := none, correctionY := none,
                 offsetX := none, offsetY := none }
      else none
    | _, _ =>
      if layoutDirective = "svg" ∧ context.type = "initialization" then
        match getObjectsBoundingBox cosD sinD g objects true with
        | some bbox =>
          some { bbox with
            correctionX := some (-(bbox.offsetX.getD 0)),
            correctionY := some (-(bbox.offsetY.getD 0)) }
        | none =>
          some { emptyLayoutResult with
            correctionX := some 0, correctionY := some 0 }
      else none

/-- Modelled from the spec: `setPositionByOrigin(newCenter, 'center',
'center')` of the base object positions the node so that its relative center
equals the given point. -/
def setPositionByOriginCenter (g : GState) (pos : Pt) : GState :=
  { g with self := { g.self with
      left := pos.x - g.self.centerOffX, top := pos.y - g.self.centerOffY } }

/-- The payload of the `layout` event fired at the end of
`_applyLayoutStrategy`: the context type, the result and the translation
vector `diff` (which, on the synthesized-first-layout path, the source never
assigned, hence `Option`). -/
structure LayoutEventData where
  contextType : String
  result : LayoutResult
  diff : Option Pt
deriving DecidableEq, Repr

/-- The body of `_applyLayoutStrategy` for a produced layout result
(group.class.ts:516-536 plus the `_firstLayoutDone` flag of line 552): compute
the translation `diff`, set the new width/height, shift the children (unless
`context.objectsRelativeToGroup`), shift a non-absolute clip path (unless this
is the first layout or the mode is clip-path), reposition the group when the
center moved or an initial transform was requested, and mark the first layout
done. Returns the new state and `diff`. `initialTransform` is the requested
initial angle/skew (initialization trigger with options only). `layoutDiff` is
the vector `(old center − new center) + correction` carried into the group's
own (un-positioned) plane, lines 518-520 of the source. -/
def layoutDiff (g : GState) (result : LayoutResult) : Pt :=
  let center := g.self.relCenter
  let newCenter : Pt := ⟨result.centerX, result.centerY⟩
  let vector := center - newCenter +
    (⟨result.correctionX.getD 0, result.correctionY.getD 0⟩ : Pt)
  transformPoint vector (invertTransform g.calcOwnMatrix) true

def layoutResultTransition (g : GState) (context : LayoutContext)
    (result : LayoutResult) (initialTransform : Option (ℚ × ℚ × ℚ)) :
    GState × Pt :=
  let isFirstLayout := context.type = "initialization"
  let center := g.self.relCenter
  let newCenter : Pt := ⟨result.centerX, result.centerY⟩
  let diff := layoutDiff g result
  let g1 := { g with self :=
    { g.self with width := result.width, height := result.height } }
  let g2 := if ¬context.objectsRelativeToGroup then
      { g1 with objects := g1.objects.map (fun o => adjustObjectPosition o diff) }
    else g1
  let clipNonAbs := match g.clipPath with
    | some c => !c.absolutePositioned
    | none => false
  let g3 := if ¬isFirstLayout ∧ g.layout ≠ "clip-path" ∧ clipNonAbs = true then
      { g2 with clipPath := g2.clipPath.map (fun c =>
        { c with obj := adjustObjectPosition c.obj diff }) }
    else g2
  let g4 := if ¬(newCenter = center) ∨ initialTransform.isSome then
      let s1 := setPositionByOriginCenter g3 newCenter
      match initialTransform with
      | some t =>
        { s1 with self :=
          { s1.self with angle := t.1, skewX := t.2.1, skewY := t.2.2 } }
      | none => s1
    else g3
  ({ g4 with firstLayoutDone := true }, diff)

/-- One invocation of `_applyLayoutStrategy(context)` (group.class.ts:502-570)
on this group, returning the new state and the `layout` event it fires (if
any). The trailing recursion into `this.group._applyLayoutStrategy` mutates
only ancestors; it runs exactly when an event was fired and the group is
nested, and is not part of this group's own transition. `setCoords()`
recomputes the corner cache, no modelled field. -/
def applyLayoutStrategyStep (cosD sinD : ℚ → ℚ) (g : GState)
    (context : LayoutContext) : GState × Option LayoutEventData :=
  let isFirstLayout := context.type = "initialization"
  if ¬isFirstLayout ∧ ¬g.firstLayoutDone then (g, none)
  else
    let options := if isFirstLayout then context.options else none
    let initialTransform := options.map (fun o =>
      (o.angle.getD 0, o.skewX.getD 0, o.skewY.getD 0))
    let center := g.self.relCenter
    match getLayoutStrategyResult cosD sinD g g.layout g.objects context with
    | some result =>
      let t := layoutResultTransition g context result initialTransform
      (t.1, some { contextType := context.type, result := result,
                   diff := some t.2 })
    | none =>
      if isFirstLayout then
        let result : LayoutResult :=
          { centerX := center.x, centerY := center.y,
            width := g.self.width, height := g.self.height,
            correctionX := none, correctionY := none,
            offsetX := none, offsetY := none }
        let g1 := match initialTransform with
          | some t =>
            { g with self :=
              { g.self with angle := t.1, skewX := t.2.1, skewY := t.2.2 } }
          | none => g
        let g2 := { g1 with firstLayoutDone := true }
        (g2, some { contextType := context.type, result := result, diff := none })
      else (g, none)


/-- Concrete stand-ins for `cos ∘ degreesToRadians` / `sin ∘ degreesToRadians`
used by witnesses (no witness object is rotated, so the values are never
consulted). -/
def cosD0 : ℚ → ℚ := fun _ => 1

def sinD0 : ℚ → ℚ := fun _ => 0

/-- A concrete unrotated child: center (25, 40), transformed dimensions
30 × 40. -/
def sampleObj : LObj :=
  { left := 10, top := 20, width := 30, height := 40,
    centerOffX := 15, centerOffY := 20, dimX := 30, dimY := 40,
    angle := 0, skewX := 0, skewY := 0 }

/-- A concrete group frame at the origin with identity transform data. -/
def baseSelf : LObj :=
  { left := 0, top := 0, width := 0, height := 0,
    centerOffX := 0, centerOffY := 0, dimX := 0, dimY := 0,
    angle := 0, skewX := 0, skewY := 0 }

/-- A concrete group state with identity own matrix and identity
transformed-dimensions query. -/
def mkGroup (layout : String) (objects : List LObj)
    (clip : Option ClipPathInfo) (done : Bool) : GState :=
  { self := baseSelf, layout := layout, objects := objects, clipPath := clip,
    firstLayoutDone := done, linA := 1, linB := 0, linC := 0, linD := 1,
    parentMatrix := none, dimsFor := fun a b => ⟨a, b⟩,
    strokeVector := ⟨0, 0⟩, originXr := 0, originYr := 0 }

/-- A bare layout context of the given trigger type. -/
def ctxOf (ty : String) : LayoutContext :=
  { type := ty, targets := [], options := none,
    objectsRelativeToGroup := false, imperativeContext := none }

/-- A concrete non-absolutely-positioned clip path. -/
def clipC : ClipPathInfo :=
  { obj := baseSelf, absolutePositioned := false,
    absCenterX := 0, absCenterY := 0 }


/-- The C5 claim as stated: in `fit-content-lazy` mode, whenever the resolver
returns the freshly computed tight bounding box of all current children, the
trigger is initialization, imperative or removed (added listed as well, it
being the claim's incremental case). -/
def claimLazyFullRecomputeOnlyOn : Prop :=
  ∀ (cosD sinD : ℚ → ℚ) (g : GState) (ctx : LayoutContext),
    getLayoutStrategyResult cosD sinD g "fit-content-lazy" g.objects ctx =
      getObjectsBoundingBox cosD sinD g g.objects false →
    (getObjectsBoundingBox cosD sinD g g.objects false).isSome = true →
    ctx.type = "initialization" ∨ ctx.type = "imperative" ∨
      ctx.type = "removed" ∨ ctx.type = "added"

/-- Modelled from the spec (C6 wording): a child's half-extent, expanded by the
rotated-rectangle bound `(hw·|cos θ| + hh·|sin θ|, hw·|sin θ| + hh·|cos θ|)`
when the child is rotated. -/
def specHalfExtent (cosD sinD : ℚ → ℚ) (o : LObj) : Pt :=
  let hw := o.dimX / 2
  let hh := o.dimY / 2
  if o.angle ≠ 0 then
    ⟨hw * |cosD o.angle| + hh * |sinD o.angle|,
     hw * |sinD o.angle| + hh * |cosD o.angle|⟩
  else ⟨hw, hh⟩

/-- Modelled from the spec (C6 wording): the two corner points a child
contributes, local center minus/plus half-extent. -/
def specCornerPair (cosD sinD : ℚ → ℚ) (o : LObj) : Pt × Pt :=
  (o.relCenter - specHalfExtent cosD sinD o,
   o.relCenter + specHalfExtent cosD sinD o)

/-- Componentwise minimum of two points. -/
def ptMin (a b : Pt) : Pt := ⟨min a.x b.x, min a.y b.y⟩

/-- Componentwise maximum of two points. -/
def ptMax (a b : Pt) : Pt := ⟨max a.x b.x, max a.y b.y⟩

/-- Minimum corner of a corner pair. -/
def cornerMin (p : Pt × Pt) : Pt := ⟨min p.1.x p.2.x, min p.1.y p.2.y⟩

/-- Maximum corner of a corner pair. -/
def cornerMax (p : Pt × Pt) : Pt := ⟨max p.1.x p.2.x, max p.1.y p.2.y⟩

/-- Modelled from the spec (C6 wording, for comparison against
`getObjectsBoundingBox`): map every child to its corner pair, accumulate the
componentwise min/max over all corners, then size = max − min, center = the
midpoint (or half the size when `ignoreOffset`), and the min corner and the
center sent through the group's own matrix; the empty child list yields no
box. -/
def specBoundingBox (cosD sinD : ℚ → ℚ) (g : GState) (objects : List LObj)
    (ignoreOffset : Bool) : Option LayoutResult :=
  match objects with
  | [] => none
  | o :: rest =>
    let c := specCornerPair cosD sinD o
    let mn := rest.foldl
      (fun acc o' => ptMin acc (cornerMin (specCornerPair cosD sinD o')))
      (cornerMin c)
    let mx := rest.foldl
      (fun acc o' => ptMax acc (cornerMax (specCornerPair cosD sinD o')))
      (cornerMax c)
    let size := mx - mn
    let relativeCenter := if ignoreOffset then (⟨size.x / 2, size.y / 2⟩ : Pt)
      else ⟨(mn.x + mx.x) / 2, (mn.y + mx.y) / 2⟩
    let offset := transformPoint mn g.calcOwnMatrix false
    let center := transformPoint relativeCenter g.calcOwnMatrix false
    some { offsetX := some offset.x, offsetY := some offset.y,
           centerX := center.x, centerY := center.y,
           width := size.x, height := size.y,
           correctionX := none, correctionY := none }

/-- The C7 claim as stated: during every layout that produces a result (the
fired event carries a translation vector), an attached non-absolutely-
positioned clip path is shifted by that same vector, unless the mode is
clip-path and the trigger is not initialization. -/
def claimClipPathAlwaysShifted : Prop :=
  ∀ (cosD sinD : ℚ → ℚ) (g : GState) (ctx : LayoutContext) (g' : GState)
    (ev : LayoutEventData) (d : Pt) (c : ClipPathInfo),
    applyLayoutStrategyStep cosD sinD g ctx = (g', some ev) →
    ev.diff = some d →
    g.clipPath = some c →
    c.absolutePositioned = false →
    ¬(g.layout = "clip-path" ∧ ctx.type ≠ "initialization") →
    g'.clipPath = some { c with obj := adjustObjectPosition c.obj d }

/-- A concrete child at center (1, 0) with zero extent. -/
def obj1 : LObj :=
  { left := 1, top := 0, width := 0, height := 0,
    centerOffX := 0, centerOffY := 0, dimX := 0, dimY := 0,
    angle := 0, skewX := 0, skewY := 0 }

/-- The layout result of the C7 counterexample group's initialization
layout. -/
def rC : LayoutResult :=
  { centerX := 1, centerY := 0, width := 0, height := 0,
    correctionX := some 0, correctionY := some 0,
    offsetX := none, offsetY := none }


/-- A world with two siblings: group 10 contains nodes 1 and 2, in that
order. -/
def sibWorld : World where
  fuel := 4
  groupOf := fun n => if n = 1 ∨ n = 2 then some 10 else none
  canvasOf := fun _ => none
  objectsOf := fun n => if n = 10 then [1, 2] else []
  canvasObjectsOf := fun _ => []
  activeOf := fun _ => []
  canvasActiveOf := fun _ => none
  dirtyOf := fun _ => false

/-- Intermediate invariant while the `add`/`insertAt` per-object callbacks run:
`pending` objects are already in `g`'s child list (the collection mixin pushed
them all first) but their `group` pointer still names their old group; all
other objects satisfy the consistency invariant. -/
structure MidInv (g : NodeId) (pending : List NodeId) (w : World) : Prop where
  nodup : ∀ G, (w.objectsOf G).Nodup
  done : ∀ o G, o ∉ pending → (o ∈ w.objectsOf G ↔ w.groupOf o = some G)
  pendInG : ∀ o ∈ pending, o ∈ w.objectsOf g
  pendOther : ∀ o ∈ pending, ∀ G, G ≠ g →
    (o ∈ w.objectsOf G ↔ w.groupOf o = some G)
  pendNotG : ∀ o ∈ pending, w.groupOf o ≠ some g
  pendNodup : pending.Nodup

/-- A small concrete world: three free-standing nodes, no parents, no canvas. -/
def exampleWorld : World where
  fuel := 4
  groupOf := fun _ => none
  canvasOf := fun _ => none
  objectsOf := fun _ => []
  canvasObjectsOf := fun _ => []
  activeOf := fun _ => []
  canvasActiveOf := fun _ => none
  dirtyOf := fun _ => false

/-- Modelled from the spec (C2 wording, for comparison against the source's
filter): an argument node is accepted iff it is (1) not the group itself,
(2) not an ancestor of the group, (3) not already a direct child of the group,
and (4) the first occurrence of itself in the argument list. -/
def specAcceptedArgs (w : World) (g : NodeId) (objects : List NodeId) :
    List NodeId :=
  (objects.enum.filter fun p =>
    decide (p.2 ≠ g ∧ w.isDescendantOf g (.obj p.2) = false ∧
      p.2 ∉ w.objectsOf g ∧ p.2 ∉ objects.take p.1)).map Prod.snd

/-- A world with node 0 being a group nested inside group 5. -/
def nestedWorld : World where
  fuel := 4
  groupOf := fun n => if n = 0 then some 5 else none
  canvasOf := fun _ => none
  objectsOf := fun n => if n = 5 then [0] else []
  canvasObjectsOf := fun _ => []
  activeOf := fun _ => []
  canvasActiveOf := fun _ => none
  dirtyOf := fun _ => false

/-- Unfolding of the point operations. -/
theorem Pt.add_def (a b : Pt) : a + b = ⟨a.x + b.x, a.y + b.y⟩ := rfl

theorem Pt.sub_def (a b : Pt) : a - b = ⟨a.x - b.x, a.y - b.y⟩ := rfl

/-- A member of the filtered argument list is an argument that passed
`canEnterGroup`. -/
theorem mem_filterObjects {w : World} {g : NodeId} {objects : List NodeId}
    {o : NodeId} :
    o ∈ w.filterObjectsBeforeEnteringGroup g objects ↔
      o ∈ objects ∧ w.canEnterGroup g o = true := by
  unfold World.filterObjectsBeforeEnteringGroup
  simp only [List.mem_map, List.mem_filter, Bool.and_eq_true, beq_iff_eq]
  constructor
  · rintro ⟨⟨i, a⟩, ⟨hmem, hcan, hidx⟩, rfl⟩
    have hget : objects[i]? = some a := List.mk_mem_enum_iff_getElem?.mp hmem
    obtain ⟨hlt, he⟩ := List.getElem?_eq_some.mp hget
    exact ⟨he ▸ List.getElem_mem hlt, hcan⟩
  · rintro ⟨hmem, hcan⟩
    refine ⟨(objects.indexOf o, o), ⟨?_, hcan, rfl⟩, rfl⟩
    exact List.mk_mem_enum_iff_getElem?.mpr (List.getElem?_indexOf hmem)

/-- Passing `canEnterGroup` unfolds to the three guards. -/
theorem canEnterGroup_eq_true {w : World} {g o : NodeId} :
    w.canEnterGroup g o = true ↔
      o ≠ g ∧ w.isDescendantOf g (.obj o) = false ∧ o ∉ w.objectsOf g := by
  unfold World.canEnterGroup
  split_ifs with h1 h2
  · simp only [false_iff]
    rintro ⟨hne, hdesc, -⟩
    rcases h1 with h | h
    · exact hne h
    · rw [hdesc] at h; cases h
  · simp only [false_iff]
    rintro ⟨-, -, hnm⟩
    exact hnm h2
  · push_neg at h1
    simp only [true_iff]
    exact ⟨h1.1, Bool.not_eq_true _ ▸ h1.2, h2⟩

/-- The filtered argument list is duplicate-free: the `indexOf === index`
first-occurrence condition keeps at most one copy of each node. -/
theorem nodup_filterObjects (w : World) (g : NodeId) (objects : List NodeId) :
    (w.filterObjectsBeforeEnteringGroup g objects).Nodup := by
  unfold World.filterObjectsBeforeEnteringGroup
  apply List.Nodup.map_on
  · intro x hx y hy hxy
    simp only [List.mem_filter, Bool.and_eq_true, beq_iff_eq] at hx hy
    have h1 : x.1 = objects.indexOf x.2 := hx.2.2.symm
    have h2 : y.1 = objects.indexOf y.2 := hy.2.2.symm
    have : x.1 = y.1 := by rw [h1, h2, hxy]
    exact Prod.ext this hxy
  · apply List.Nodup.filter
    apply List.Nodup.of_map Prod.fst
    rw [List.enum_map_fst]
    exact List.nodup_range _

/-- Field projections of `exitGroupCore`. -/
theorem exitGroupCore_groupOf (w : World) (g o : NodeId) :
    (w.exitGroupCore g o).groupOf = Function.update w.groupOf o none := rfl

theorem exitGroupCore_objectsOf (w : World) (g o : NodeId) :
    (w.exitGroupCore g o).objectsOf = w.objectsOf := rfl

/-- Field projections of `enterGroupCore`. -/
theorem enterGroupCore_groupOf (w : World) (g o : NodeId) :
    (w.enterGroupCore g o).groupOf = Function.update w.groupOf o (some g) := rfl

theorem enterGroupCore_objectsOf (w : World) (g o : NodeId) :
    (w.enterGroupCore g o).objectsOf = w.objectsOf := rfl

/-- Field projections of removing a single present child with the full group
`remove`. -/
theorem remove_single_groupOf (w : World) (h o : NodeId)
    (hmem : o ∈ w.objectsOf h) :
    (w.remove h [o]).1.groupOf = Function.update w.groupOf o none := by
  unfold World.remove World.collectionRemove World.onAfterObjectsChange
  simp only [if_pos hmem]
  rfl

theorem remove_single_objectsOf (w : World) (h o : NodeId)
    (hmem : o ∈ w.objectsOf h) :
    (w.remove h [o]).1.objectsOf =
      Function.update w.objectsOf h ((w.objectsOf h).erase o) := by
  unfold World.remove World.collectionRemove World.onAfterObjectsChange
  simp only [if_pos hmem]
  rfl

/-- Field projections of `onObjectAdded` when the object had no previous
group. -/
theorem onObjectAdded_none (w : World) (g o : NodeId)
    (hg : w.groupOf o = none) :
    (w.onObjectAdded g o).groupOf = Function.update w.groupOf o (some g) ∧
      (w.onObjectAdded g o).objectsOf = w.objectsOf := by
  unfold World.onObjectAdded World.enterGroup
  rw [hg]
  exact ⟨rfl, rfl⟩

/-- Field projections of `onObjectAdded` when the object belonged to group `h`
(which first removes it from `h`). -/
theorem onObjectAdded_some (w : World) (g o h : NodeId)
    (hg : w.groupOf o = some h) (hmem : o ∈ w.objectsOf h) :
    (w.onObjectAdded g o).groupOf = Function.update w.groupOf o (some g) ∧
      (w.onObjectAdded g o).objectsOf =
        Function.update w.objectsOf h ((w.objectsOf h).erase o) := by
  unfold World.onObjectAdded World.enterGroup
  rw [hg]
  constructor
  · show Function.update (w.remove h [o]).1.groupOf o (some g) = _
    rw [remove_single_groupOf w h o hmem, Function.update_idem]
  · show (w.remove h [o]).1.objectsOf = _
    exact remove_single_objectsOf w h o hmem

/-- One `_onObjectAdded` callback turns the head of `pending` into a settled
member of `g` and leaves `g`'s child list untouched. -/
theorem midInv_step (w : World) (g o : NodeId) (rest : List NodeId)
    (h : MidInv g (o :: rest) w) :
    MidInv g rest (w.onObjectAdded g o) ∧
      (w.onObjectAdded g o).objectsOf g = w.objectsOf g := by
  have hpend : o ∈ o :: rest := List.mem_cons_self o rest
  have hnotg : w.groupOf o ≠ some g := h.pendNotG o hpend
  have hrestno : o ∉ rest := (List.nodup_cons.mp h.pendNodup).1
  have hoInG : o ∈ w.objectsOf g := h.pendInG o hpend
  cases hg : w.groupOf o with
  | none =>
    obtain ⟨e1, e2⟩ := onObjectAdded_none w g o hg
    refine ⟨⟨?_, ?_, ?_, ?_, ?_, ?_⟩, ?_⟩
    · intro G; rw [e2]; exact h.nodup G
    · intro o' G ho'
      rw [e1, e2, Function.update_apply]
      by_cases heq : o' = o
      · rw [if_pos heq, heq]
        simp only [Option.some.injEq]
        by_cases hGg : G = g
        · subst hGg
          simp [hoInG]
        · rw [h.pendOther o hpend G hGg, hg]
          constructor
          · intro hc; cases hc
          · intro hc; exact absurd hc.symm hGg
      · rw [if_neg heq]
        refine h.done o' G ?_
        intro hc
        rcases List.mem_cons.mp hc with hc' | hc'
        · exact heq hc'
        · exact ho' hc'
    · intro o' ho'
      rw [e2]; exact h.pendInG o' (List.mem_cons_of_mem o ho')
    · intro o' ho' G hGg
      have ho'o : o' ≠ o := fun hc => hrestno (hc ▸ ho')
      rw [e1, e2, Function.update_noteq ho'o]
      exact h.pendOther o' (List.mem_cons_of_mem o ho') G hGg
    · intro o' ho'
      have ho'o : o' ≠ o := fun hc => hrestno (hc ▸ ho')
      rw [e1, Function.update_noteq ho'o]
      exact h.pendNotG o' (List.mem_cons_of_mem o ho')
    · exact (List.nodup_cons.mp h.pendNodup).2
    · rw [e2]
  | some hh =>
    have hne : hh ≠ g := fun e => hnotg (e ▸ hg)
    have hmem : o ∈ w.objectsOf hh := (h.pendOther o hpend hh hne).mpr hg
    obtain ⟨e1, e2⟩ := onObjectAdded_some w g o hh hg hmem
    refine ⟨⟨?_, ?_, ?_, ?_, ?_, ?_⟩, ?_⟩
    · intro G; rw [e2, Function.update_apply]
      by_cases hG : G = hh
      · rw [if_pos hG]; exact (h.nodup hh).erase o
      · rw [if_neg hG]; exact h.nodup G
    · intro o' G ho'
      rw [e1, e2, Function.update_apply, Function.update_apply]
      by_cases heq : o' = o
      · rw [if_pos heq, heq]
        simp only [Option.some.injEq]
        by_cases hG : G = hh
        · rw [if_pos hG, (h.nodup hh).mem_erase_iff]
          simp only [ne_eq, not_true_eq_false, false_and, false_iff]
          intro hc
          exact hne (hc.trans hG).symm
        · rw [if_neg hG]
          by_cases hGg : G = g
          · subst hGg
            simp [hoInG]
          · rw [h.pendOther o hpend G hGg, hg]
            simp only [Option.some.injEq]
            constructor
            · intro hc; exact absurd hc.symm hG
            · intro hc; exact absurd hc.symm hGg
      · rw [if_neg heq]
        have hnot : o' ∉ o :: rest := by
          intro hc
          rcases List.mem_cons.mp hc with hc' | hc'
          · exact heq hc'
          · exact ho' hc'
        by_cases hG : G = hh
        · rw [if_pos hG, hG, (h.nodup hh).mem_erase_iff, h.done o' hh hnot]
          simp [heq]
        · rw [if_neg hG]
          exact h.done o' G hnot
    · intro o' ho'
      rw [e2, Function.update_noteq (Ne.symm hne)]
      exact h.pendInG o' (List.mem_cons_of_mem o ho')
    · intro o' ho' G hGg
      have ho'o : o' ≠ o := fun hc => hrestno (hc ▸ ho')
      rw [e1, e2, Function.update_noteq ho'o, Function.update_apply]
      by_cases hG : G = hh
      · rw [hG] at hGg
        rw [if_pos hG, hG, (h.nodup hh).mem_erase_iff]
        rw [h.pendOther o' (List.mem_cons_of_mem o ho') hh hGg]
        simp [ho'o]
      · rw [if_neg hG]
        exact h.pendOther o' (List.mem_cons_of_mem o ho') G hGg
    · intro o' ho'
      have ho'o : o' ≠ o := fun hc => hrestno (hc ▸ ho')
      rw [e1, Function.update_noteq ho'o]
      exact h.pendNotG o' (List.mem_cons_of_mem o ho')
    · exact (List.nodup_cons.mp h.pendNodup).2
    · rw [e2, Function.update_noteq (Ne.symm hne)]

/-- Running the `_onObjectAdded` callback over all pending objects restores the
full invariant and leaves `g`'s child list untouched. -/
theorem foldl_onObjectAdded (g : NodeId) (pending : List NodeId) :
    ∀ w : World, MidInv g pending w →
      (pending.foldl (fun acc o => acc.onObjectAdded g o) w).Inv ∧
        (pending.foldl (fun acc o => acc.onObjectAdded g o) w).objectsOf g =
          w.objectsOf g := by
  induction pending with
  | nil =>
    intro w h
    exact ⟨⟨h.nodup, fun o G => h.done o G (List.not_mem_nil o)⟩, rfl⟩
  | cons o rest ih =>
    intro w h
    obtain ⟨hmid, hobj⟩ := midInv_step w g o rest h
    obtain ⟨hinv, hpres⟩ := ih _ hmid
    rw [List.foldl_cons]
    exact ⟨hinv, hpres.trans hobj⟩

/-- After the collection mixin pushes the filtered objects into `g`'s child
list (in any arrangement `L` that is a permutation of old-children-plus-new),
the intermediate invariant holds with all new objects pending. -/
theorem midInv_init (w : World) (g : NodeId) (objects : List NodeId)
    (hInv : w.Inv) (L : List NodeId)
    (hperm : L.Perm
      (w.objectsOf g ++ w.filterObjectsBeforeEnteringGroup g objects)) :
    MidInv g (w.filterObjectsBeforeEnteringGroup g objects)
      { w with objectsOf := Function.update w.objectsOf g L } := by
  set allowed := w.filterObjectsBeforeEnteringGroup g objects with hal
  have hallNodup : allowed.Nodup := nodup_filterObjects w g objects
  have hallNotIn : ∀ o ∈ allowed, o ∉ w.objectsOf g := by
    intro o ho
    exact (canEnterGroup_eq_true.mp (mem_filterObjects.mp ho).2).2.2
  have hLNodup : L.Nodup := by
    refine hperm.nodup_iff.mpr ?_
    refine List.Nodup.append (hInv.1 g) hallNodup ?_
    intro o ho1 ho2
    exact hallNotIn o ho2 ho1
  have hLmem : ∀ o, o ∈ L ↔ o ∈ w.objectsOf g ∨ o ∈ allowed := by
    intro o
    rw [hperm.mem_iff, List.mem_append]
  refine ⟨?_, ?_, ?_, ?_, ?_, hallNodup⟩
  · intro G
    show (Function.update w.objectsOf g L G).Nodup
    by_cases hG : G = g
    · rw [hG, Function.update_same]; exact hLNodup
    · rw [Function.update_noteq hG]; exact hInv.1 G
  · intro o G ho
    show o ∈ Function.update w.objectsOf g L G ↔ w.groupOf o = some G
    by_cases hG : G = g
    · rw [hG, Function.update_same, hLmem o]
      have : o ∉ allowed := ho
      simp only [this, or_false]
      exact hInv.2 o g
    · rw [Function.update_noteq hG]; exact hInv.2 o G
  · intro o ho
    show o ∈ Function.update w.objectsOf g L g
    rw [Function.update_same, hLmem o]
    exact Or.inr ho
  · intro o ho G hG
    show o ∈ Function.update w.objectsOf g L G ↔ w.groupOf o = some G
    rw [Function.update_noteq hG]; exact hInv.2 o G
  · intro o ho
    show w.groupOf o ≠ some g
    intro hc
    exact hallNotIn o ho ((hInv.2 o g).mpr hc)

/-- Removing a present child and clearing its parent pointer preserves the
invariant (the membership effect of one `collectionRemove` step). -/
theorem inv_erase_step (w : World) (g o : NodeId) (hInv : w.Inv)
    (hmem : o ∈ w.objectsOf g) (w' : World)
    (e1 : w'.groupOf = Function.update w.groupOf o none)
    (e2 : w'.objectsOf =
      Function.update w.objectsOf g ((w.objectsOf g).erase o)) :
    w'.Inv := by
  have hgo : w.groupOf o = some g := (hInv.2 o g).mp hmem
  constructor
  · intro G
    rw [e2, Function.update_apply]
    by_cases hG : G = g
    · rw [if_pos hG]; exact (hInv.1 g).erase o
    · rw [if_neg hG]; exact hInv.1 G
  · intro o' G
    rw [e1, e2, Function.update_apply, Function.update_apply]
    by_cases heq : o' = o
    · rw [if_pos heq, heq]
      by_cases hG : G = g
      · rw [if_pos hG, (hInv.1 g).mem_erase_iff]
        simp
      · rw [if_neg hG, hInv.2 o G, hgo]
        simp only [Option.some.injEq]
        constructor
        · intro hc; exact absurd hc.symm hG
        · intro hc; cases hc
    · rw [if_neg heq]
      by_cases hG : G = g
      · rw [if_pos hG, hG, (hInv.1 g).mem_erase_iff]
        rw [hInv.2 o' g]
        simp [heq]
      · rw [if_neg hG]; exact hInv.2 o' G

/-- `collectionRemove` preserves the invariant. -/
theorem collectionRemove_inv (g : NodeId) (objects : List NodeId) :
    ∀ w : World, w.Inv → (w.collectionRemove g objects).1.Inv := by
  induction objects with
  | nil => intro w h; exact h
  | cons o rest ih =>
    intro w h
    unfold World.collectionRemove
    by_cases hmem : o ∈ w.objectsOf g
    · simp only [if_pos hmem]
      apply ih
      exact inv_erase_step w g o h hmem _ rfl rfl
    · simp only [if_neg hmem]
      exact ih w h

/-- `add` preserves the invariant and appends exactly the filtered objects to
`g`'s child list. -/
theorem add_inv (w : World) (g : NodeId) (objects : List NodeId)
    (hInv : w.Inv) :
    (w.add g objects).Inv ∧
      (w.add g objects).objectsOf g =
        w.objectsOf g ++ w.filterObjectsBeforeEnteringGroup g objects := by
  have hmid := midInv_init w g objects hInv
    (w.objectsOf g ++ w.filterObjectsBeforeEnteringGroup g objects)
    (List.Perm.refl _)
  have hfold := foldl_onObjectAdded g
    (w.filterObjectsBeforeEnteringGroup g objects) _ hmid
  refine ⟨hfold.1, ?_⟩
  exact hfold.2.trans (Function.update_same _ _ _)

/-- `insertAt` preserves the invariant and splices exactly the filtered objects
into `g`'s child list at the index. -/
theorem insertAt_inv (w : World) (g : NodeId) (objects : List NodeId)
    (index : Nat) (hInv : w.Inv) :
    (w.insertAt g objects index).Inv ∧
      (w.insertAt g objects index).objectsOf g =
        (w.objectsOf g).take index ++
          w.filterObjectsBeforeEnteringGroup g objects ++
          (w.objectsOf g).drop index := by
  set allowed := w.filterObjectsBeforeEnteringGroup g objects with hal
  have hperm : ((w.objectsOf g).take index ++ allowed ++
      (w.objectsOf g).drop index).Perm (w.objectsOf g ++ allowed) := by
    rw [List.append_assoc]
    refine (List.Perm.append_left _ List.perm_append_comm).trans ?_
    rw [← List.append_assoc, List.take_append_drop]
  have hmid := midInv_init w g objects hInv _ hperm
  have hfold := foldl_onObjectAdded g allowed _ hmid
  refine ⟨hfold.1, ?_⟩
  exact hfold.2.trans (Function.update_same _ _ _)

/-- C1 theorem. Membership consistency invariant: after any completed `add`,
`insertAt`, `remove` or `removeAll` on a well-formed world, a node is in a
group's child sequence exactly when its `group` pointer names that group, and
membership is exclusive (no node has two parents). -/
theorem membership_invariant (w : World) (g : NodeId) (objects : List NodeId)
    (index : Nat) (hInv : w.Inv) :
    (w.add g objects).Inv ∧ (w.insertAt g objects index).Inv ∧
      (w.remove g objects).1.Inv ∧ (w.removeAll g).1.Inv ∧
      (∀ o G G', o ∈ (w.add g objects).objectsOf G →
        o ∈ (w.add g objects).objectsOf G' → G = G') := by
  have hAdd := (add_inv w g objects hInv).1
  refine ⟨hAdd, (insertAt_inv w g objects index hInv).1, ?_, ?_, ?_⟩
  · exact collectionRemove_inv g objects w hInv
  · exact collectionRemove_inv g _ _ hInv
  · intro o G G' h1 h2
    have e1 := (hAdd.2 o G).mp h1
    have e2 := (hAdd.2 o G').mp h2
    exact Option.some.inj (e1.symm.trans e2)

/-- The empty example world satisfies the invariant. -/
theorem exampleWorld_inv : exampleWorld.Inv := by
  constructor
  · intro g; exact List.nodup_nil
  · intro o g; simp [exampleWorld]

/-- Witness for the C1 theorem at a concrete world. -/
theorem membership_invariant_witness :
    (exampleWorld.add 0 [1, 2]).Inv ∧ (exampleWorld.removeAll 0).1.Inv :=
  ⟨(membership_invariant exampleWorld 0 [1, 2] 0 exampleWorld_inv).1,
   (membership_invariant exampleWorld 0 [1, 2] 0 exampleWorld_inv).2.2.2.1⟩

/-- An element sits at index `i` as its first occurrence exactly when it does
not occur among the first `i` elements. -/
theorem indexOf_eq_iff_not_mem_take :
    ∀ (l : List NodeId) (i : Nat) (a : NodeId), l[i]? = some a →
      (l.indexOf a = i ↔ a ∉ l.take i)
  | [], i, a, h => by simp at h
  | x :: xs, 0, a, h => by
    simp only [List.getElem?_cons_zero, Option.some.injEq] at h
    subst h
    simp [List.indexOf_cons_self]
  | x :: xs, i + 1, a, h => by
    simp only [List.getElem?_cons_succ] at h
    by_cases hxa : x = a
    · subst hxa
      simp [List.indexOf_cons_self]
    · rw [List.indexOf_cons_ne _ (by exact hxa)]
      rw [List.take_succ_cons]
      simp only [List.mem_cons, not_or]
      have := indexOf_eq_iff_not_mem_take xs i a h
      constructor
      · intro he
        refine ⟨fun hc => hxa hc.symm, this.mp (Nat.succ_injective he)⟩
      · intro ⟨_, hnm⟩
        rw [this.mpr hnm]

/-- The source's filter accepts exactly the nodes the spec describes. -/
theorem filterObjects_eq_specAccepted (w : World) (g : NodeId)
    (objects : List NodeId) :
    w.filterObjectsBeforeEnteringGroup g objects =
      specAcceptedArgs w g objects := by
  unfold World.filterObjectsBeforeEnteringGroup specAcceptedArgs
  congr 1
  apply List.filter_congr
  intro p hp
  obtain ⟨i, a⟩ := p
  have hget : objects[i]? = some a := List.mk_mem_enum_iff_getElem?.mp hp
  have hidx := indexOf_eq_iff_not_mem_take objects i a hget
  have hbool : ∀ x y : Bool, (x = true ↔ y = true) → x = y := by decide
  apply hbool
  simp only [Bool.and_eq_true, beq_iff_eq, decide_eq_true_eq,
    canEnterGroup_eq_true]
  constructor
  · rintro ⟨⟨h1, h2, h3⟩, h4⟩
    exact ⟨h1, h2, h3, hidx.mp h4⟩
  · rintro ⟨h1, h2, h3, h4⟩
    exact ⟨⟨h1, h2, h3⟩, hidx.mpr h4⟩

/-- Adding a node that is an ancestor of the group is filtered out. -/
theorem filterObjects_ancestor_nil (w : World) (g o : NodeId)
    (hdesc : w.isDescendantOf g (.obj o) = true) :
    w.filterObjectsBeforeEnteringGroup g [o] = [] := by
  have hce : w.canEnterGroup g o = false := by
    unfold World.canEnterGroup
    rw [if_pos (Or.inr hdesc)]
  unfold World.filterObjectsBeforeEnteringGroup
  simp [List.enum, List.enumFrom, hce]

/-- C2 theorem. For every `add`/`insertAt` call: the accepted nodes are exactly
the arguments that are not the group, not an ancestor of the group, not
already a direct child, and first occurrences within the call; they are
appended (respectively spliced in at the index) in argument order and each one
ends up with its `group` pointer set, while every rejected argument is skipped
without aborting the call (the operations are total functions); in particular
adding a node to a descendant of itself leaves membership unchanged. -/
theorem add_filtering (w : World) (g : NodeId) (objects : List NodeId)
    (index : Nat) (o : NodeId) (hInv : w.Inv)
    (hdesc : w.isDescendantOf g (.obj o) = true) :
    (w.filterObjectsBeforeEnteringGroup g objects =
        specAcceptedArgs w g objects) ∧
      ((w.add g objects).objectsOf g =
        w.objectsOf g ++ w.filterObjectsBeforeEnteringGroup g objects) ∧
      (∀ a ∈ w.filterObjectsBeforeEnteringGroup g objects,
        (w.add g objects).groupOf a = some g) ∧
      ((w.insertAt g objects index).objectsOf g =
        (w.objectsOf g).take index ++
          w.filterObjectsBeforeEnteringGroup g objects ++
          (w.objectsOf g).drop index) ∧
      (∀ G, (w.add g [o]).objectsOf G = w.objectsOf G) ∧
      (∀ a, (w.add g [o]).groupOf a = w.groupOf a) := by
  obtain ⟨hAddInv, hAddObj⟩ := add_inv w g objects hInv
  have hnil := filterObjects_ancestor_nil w g o hdesc
  refine ⟨filterObjects_eq_specAccepted w g objects, hAddObj, ?_, ?_, ?_, ?_⟩
  · intro a ha
    refine (hAddInv.2 a g).mp ?_
    rw [hAddObj]
    exact List.mem_append_right _ ha
  · exact (insertAt_inv w g objects index hInv).2
  · intro G
    simp only [World.add, World.collectionAdd, hnil, List.foldl_nil,
      List.append_nil, World.onAfterObjectsChange]
    rw [Function.update_apply]
    by_cases hG : G = g
    · rw [if_pos hG, hG]
    · rw [if_neg hG]
  · intro a
    simp only [World.add, World.collectionAdd, hnil, List.foldl_nil,
      World.onAfterObjectsChange]

/-- The nested example world satisfies the invariant. -/
theorem nestedWorld_inv : nestedWorld.Inv := by
  constructor
  · intro g
    by_cases hg : g = 5 <;> simp [nestedWorld, hg]
  · intro o g
    show o ∈ (if g = 5 then [0] else []) ↔
      (if o = 0 then some 5 else none) = some g
    by_cases ho : o = 0
    · by_cases hg : g = 5
      · rw [if_pos ho, if_pos hg, ho, hg]; simp
      · rw [if_pos ho, if_neg hg]
        simp only [List.not_mem_nil, false_iff, Option.some.injEq]
        exact fun hc => hg hc.symm
    · by_cases hg : g = 5
      · rw [if_neg ho, if_pos hg]
        simp [ho]
      · rw [if_neg ho, if_neg hg]
        simp

/-- Witness for the C2 theorem at a concrete world: group 0 lives inside group
5, so adding 5 to 0 is rejected and membership is unchanged. -/
theorem add_filtering_witness :
    nestedWorld.isDescendantOf 0 (.obj 5) = true ∧
      (∀ G, (nestedWorld.add 0 [5]).objectsOf G = nestedWorld.objectsOf G) :=
  ⟨rfl, (add_filtering nestedWorld 0 [1, 2] 0 5 nestedWorld_inv rfl).2.2.2.2.1⟩


/-- C10 theorem. The group's active-object collection has no duplicate guard:
a `selected` event appends the target unconditionally (so two selections
without a deselection leave two copies), a `deselected` event — like a group
exit — removes at most the first occurrence, and a deselection sets `dirty`
only when the target was actually present. -/
theorem activeObjects_selection_monitor (w : World) (g t : NodeId) :
    ((w.objectSelectionMonitor g true t).activeOf g = w.activeOf g ++ [t]) ∧
      (((w.objectSelectionMonitor g true t).objectSelectionMonitor g true t).activeOf g
        = w.activeOf g ++ [t, t]) ∧
      ((w.objectSelectionMonitor g false t).activeOf g = (w.activeOf g).erase t) ∧
      ((w.exitGroupCore g t).activeOf g = (w.activeOf g).erase t) ∧
      ((w.objectSelectionMonitor g false t).dirtyOf g =
        if t ∈ w.activeOf g then true else w.dirtyOf g) := by
  have hsel : ∀ w' : World,
      (w'.objectSelectionMonitor g true t).activeOf g = w'.activeOf g ++ [t] := by
    intro w'
    unfold World.objectSelectionMonitor
    simp
  have hdesel : ∀ w' : World,
      (w'.objectSelectionMonitor g false t).activeOf g = (w'.activeOf g).erase t := by
    intro w'
    unfold World.objectSelectionMonitor
    simp only [Bool.false_eq_true, if_false]
    by_cases hlen : 0 < (w'.activeOf g).length
    · rw [if_pos hlen]
      by_cases hmem : t ∈ w'.activeOf g
      · rw [if_pos hmem]; simp
      · rw [if_neg hmem, List.erase_of_not_mem hmem]
    · rw [if_neg hlen]
      have : w'.activeOf g = [] := List.eq_nil_of_length_eq_zero (by omega)
      rw [this, List.erase_nil]
  refine ⟨hsel w, ?_, hdesel w, ?_, ?_⟩
  · rw [hsel _, hsel w, List.append_assoc]
    rfl
  · unfold World.exitGroupCore
    simp only [Function.update_same]
    by_cases hlen : 0 < (w.activeOf g).length
    · by_cases hmem : t ∈ w.activeOf g
      · rw [if_pos ⟨hlen, hmem⟩]
      · rw [if_neg (fun hc => hmem hc.2), List.erase_of_not_mem hmem]
    · rw [if_neg (fun hc => hlen hc.1)]
      have : w.activeOf g = [] := List.eq_nil_of_length_eq_zero (by omega)
      rw [this, List.erase_nil]
  · unfold World.objectSelectionMonitor
    simp only [Bool.false_eq_true, if_false]
    by_cases hmem : t ∈ w.activeOf g
    · have hlen : 0 < (w.activeOf g).length := List.length_pos.mpr
        (fun hc => by rw [hc] at hmem; cases hmem)
      rw [if_pos hlen, if_pos hmem, if_pos hmem]
      simp
    · rw [if_neg hmem]
      by_cases hlen : 0 < (w.activeOf g).length
      · rw [if_pos hlen, if_neg hmem]
      · rw [if_neg hlen, if_neg hmem]

/-- C3 theorem. Before the first initialization layout has completed, any
layout request whose trigger is not `initialization` is a silent no-op: the
state (width, height, position, children, clip path) is unchanged and no
`layout` event is fired. -/
theorem layout_rejected_before_first_layout (cosD sinD : ℚ → ℚ) (g : GState)
    (context : LayoutContext) (h1 : g.firstLayoutDone = false)
    (h2 : context.type ≠ "initialization") :
    applyLayoutStrategyStep cosD sinD g context = (g, none) := by
  unfold applyLayoutStrategyStep
  rw [if_pos ⟨h2, by rw [h1]; exact Bool.false_ne_true⟩]

/-- Witness for the C3 theorem: an `added` request on a group whose first
layout has not run leaves it untouched. -/
theorem layout_rejected_witness :
    (mkGroup "fit-content" [sampleObj] none false).firstLayoutDone = false ∧
      applyLayoutStrategyStep cosD0 sinD0
        (mkGroup "fit-content" [sampleObj] none false) (ctxOf "added") =
        (mkGroup "fit-content" [sampleObj] none false, none) :=
  ⟨rfl, layout_rejected_before_first_layout cosD0 sinD0 _ _ rfl (by decide)⟩

/-- For the `fixed` layout mode, the strategy resolver yields no result on any
trigger other than initialization or imperative. -/
theorem fixed_strategy_none (cosD sinD : ℚ → ℚ) (g : GState)
    (objs : List LObj) (c : LayoutContext)
    (hc1 : c.type ≠ "initialization") (hc2 : c.type ≠ "imperative") :
    getLayoutStrategyResult cosD sinD g "fixed" objs c = none := by
  unfold getLayoutStrategyResult
  rw [if_neg (by simp), if_neg (by simp [hc1, hc2])]
  cases hclip : g.clipPath with
  | none => simp [hc1]
  | some clip => simp [hc1]

/-- C4 theorem. A `fixed`-mode group that has completed its initialization
layout ignores `added`, `removed`, `object_modified` and `layout_change`
triggers entirely: the resolver produces no result, so the declared width and
height and the children's positions are untouched and no event fires; the
bounding box is recomputed only on `initialization` or `imperative`
triggers. -/
theorem fixed_mode_no_reactive_layout (cosD sinD : ℚ → ℚ) (g : GState)
    (context : LayoutContext) (objs : List LObj) (c : LayoutContext)
    (hlay : g.layout = "fixed") (hdone : g.firstLayoutDone = true)
    (htype : context.type = "added" ∨ context.type = "removed" ∨
      context.type = "object_modified" ∨ context.type = "layout_change")
    (hc1 : c.type ≠ "initialization") (hc2 : c.type ≠ "imperative") :
    getLayoutStrategyResult cosD sinD g "fixed" objs c = none ∧
      applyLayoutStrategyStep cosD sinD g context = (g, none) := by
  have hne1 : context.type ≠ "initialization" := by
    rcases htype with h | h | h | h <;> rw [h] <;> decide
  have hne2 : context.type ≠ "imperative" := by
    rcases htype with h | h | h | h <;> rw [h] <;> decide
  refine ⟨fixed_strategy_none cosD sinD g objs c hc1 hc2, ?_⟩
  unfold applyLayoutStrategyStep
  rw [if_neg (by simp [hdone])]
  rw [hlay, fixed_strategy_none cosD sinD g g.objects context hne1 hne2]
  exact if_neg hne1

/-- Witness for the C4 theorem: a concrete `fixed` group is left untouched by
an `added` trigger. -/
theorem fixed_mode_witness :
    applyLayoutStrategyStep cosD0 sinD0 (mkGroup "fixed" [sampleObj] none true)
        (ctxOf "added") =
      (mkGroup "fixed" [sampleObj] none true, none) :=
  (fixed_mode_no_reactive_layout cosD0 sinD0
    (mkGroup "fixed" [sampleObj] none true) (ctxOf "added") []
    (ctxOf "removed") rfl rfl (Or.inl rfl) (by decide) (by decide)).2


/-- C5 counterexample. On an `object_modified` trigger (not initialization,
imperative, removed or added) a `fit-content-lazy` group still recomputes the
full bounding box of all children, refuting the claim's "only". -/
theorem lazy_full_recompute_counterexample : ¬claimLazyFullRecomputeOnlyOn := by
  intro h
  have := h cosD0 sinD0 (mkGroup "fit-content-lazy" [sampleObj] none true)
    (ctxOf "object_modified") rfl rfl
  rcases this with hc | hc | hc | hc <;> exact absurd hc (by decide)

/-- C5 amended theorem. In `fit-content-lazy` mode the resolver computes the
incremental box (newly added children merged with the group's own current
frame) exactly on an `added` trigger with a non-empty prior child set; on
every other trigger it hands the full child list to `prepareBoundingBox`,
which outside initialization and imperative triggers is precisely the fresh
tight bounding box of all children (so the full recompute also happens on
`object_modified` and `layout_change`, and on `added` into a previously empty
group — not only on initialization/imperative/removed). -/
theorem fitContentLazy_strategy (cosD sinD : ℚ → ℚ) (g : GState)
    (objects : List LObj) (ctx : LayoutContext) :
    (ctx.type = "added" ∧ ctx.targets.length < objects.length →
      getLayoutStrategyResult cosD sinD g "fit-content-lazy" objects ctx =
        prepareBoundingBox cosD sinD g (ctx.targets ++ [g.self]) ctx) ∧
      (¬(ctx.type = "added" ∧ ctx.targets.length < objects.length) →
        getLayoutStrategyResult cosD sinD g "fit-content-lazy" objects ctx =
          prepareBoundingBox cosD sinD g objects ctx) ∧
      (ctx.type ≠ "initialization" → ctx.type ≠ "imperative" →
        prepareBoundingBox cosD sinD g objects ctx =
          getObjectsBoundingBox cosD sinD g objects false) := by
  refine ⟨?_, ?_, ?_⟩
  · intro hyp
    unfold getLayoutStrategyResult
    rw [if_pos ⟨rfl, hyp.1, hyp.2⟩]
  · intro hno
    unfold getLayoutStrategyResult
    rw [if_neg (fun hc => hno ⟨hc.2.1, hc.2.2⟩),
      if_pos (Or.inr (Or.inl rfl))]
  · intro h1 h2
    unfold prepareBoundingBox
    rw [if_neg h1]
    have hb : (ctx.type == "imperative") = false := by
      simp [h2]
    rw [hb]

/-- Witness for the C5 amended theorem at concrete inputs: an added trigger
with empty target payload into a one-child group takes the incremental branch;
an object-modified trigger is the full tight box. -/
theorem fitContentLazy_strategy_witness :
    (getLayoutStrategyResult cosD0 sinD0
        (mkGroup "fit-content-lazy" [sampleObj] none true)
        "fit-content-lazy" [sampleObj] (ctxOf "added") =
      prepareBoundingBox cosD0 sinD0
        (mkGroup "fit-content-lazy" [sampleObj] none true)
        ((ctxOf "added").targets ++ [(mkGroup "fit-content-lazy" [sampleObj] none true).self])
        (ctxOf "added")) ∧
    (prepareBoundingBox cosD0 sinD0
        (mkGroup "fit-content-lazy" [sampleObj] none true)
        [sampleObj] (ctxOf "object_modified") =
      getObjectsBoundingBox cosD0 sinD0
        (mkGroup "fit-content-lazy" [sampleObj] none true) [sampleObj] false) :=
  ⟨(fitContentLazy_strategy cosD0 sinD0
      (mkGroup "fit-content-lazy" [sampleObj] none true) [sampleObj]
      (ctxOf "added")).1 ⟨rfl, by decide⟩,
   (fitContentLazy_strategy cosD0 sinD0
      (mkGroup "fit-content-lazy" [sampleObj] none true) [sampleObj]
      (ctxOf "object_modified")).2.2 (by decide) (by decide)⟩

/-- The accumulation of `getObjectsBoundingBox` over an already-initialized
min/max pair equals the componentwise min/max folds over the children's corner
pairs. -/
theorem foldl_bboxStep (cosD sinD : ℚ → ℚ) :
    ∀ (l : List LObj) (mn mx : Pt),
      l.foldl (bboxStep cosD sinD) (some (mn, mx)) =
        some (l.foldl
            (fun acc o => ptMin acc (cornerMin (specCornerPair cosD sinD o))) mn,
          l.foldl
            (fun acc o => ptMax acc (cornerMax (specCornerPair cosD sinD o))) mx)
  | [], mn, mx => rfl
  | o :: l, mn, mx => by
    rw [List.foldl_cons, List.foldl_cons, List.foldl_cons]
    have hstep : bboxStep cosD sinD (some (mn, mx)) o =
        some (ptMin mn (cornerMin (specCornerPair cosD sinD o)),
          ptMax mx (cornerMax (specCornerPair cosD sinD o))) := rfl
    rw [hstep]
    exact foldl_bboxStep cosD sinD l _ _

/-- C6 theorem. `getObjectsBoundingBox` computes exactly the spec's box:
corner pairs from local centers and (rotation-expanded) half-extents,
accumulated componentwise min/max, size = max − min, center = midpoint (or
half the size under `ignoreOffset`), offset and center sent through the
group's own matrix — and the empty child list yields no box (`null`, distinct
from a zero-size box). -/
theorem getObjectsBoundingBox_spec (cosD sinD : ℚ → ℚ) (g : GState)
    (objects : List LObj) (ignoreOffset : Bool) :
    getObjectsBoundingBox cosD sinD g objects ignoreOffset =
      specBoundingBox cosD sinD g objects ignoreOffset ∧
      getObjectsBoundingBox cosD sinD g [] ignoreOffset = none := by
  refine ⟨?_, rfl⟩
  unfold getObjectsBoundingBox specBoundingBox
  cases objects with
  | nil => rfl
  | cons o l =>
    rw [List.foldl_cons]
    have h0 : bboxStep cosD sinD none o =
        some (cornerMin (specCornerPair cosD sinD o),
          cornerMax (specCornerPair cosD sinD o)) := rfl
    rw [h0, foldl_bboxStep cosD sinD l _ _]


/-- The translation vector returned by the result-applying phase. -/
theorem layoutResultTransition_snd (g : GState) (context : LayoutContext)
    (r : LayoutResult) (it : Option (ℚ × ℚ × ℚ)) :
    (layoutResultTransition g context r it).2 = layoutDiff g r := rfl

/-- The result-applying phase leaves the child list untouched when the context
says children are already relative to the new frame, and otherwise shifts
every child by the computed translation vector. -/
theorem layoutResultTransition_objects (g : GState) (context : LayoutContext)
    (r : LayoutResult) (it : Option (ℚ × ℚ × ℚ)) :
    (layoutResultTransition g context r it).1.objects =
      if ¬context.objectsRelativeToGroup then
        g.objects.map (fun o => adjustObjectPosition o (layoutDiff g r))
      else g.objects := by
  cases it with
  | none =>
    simp only [layoutResultTransition, setPositionByOriginCenter]
    split_ifs <;> rfl
  | some t =>
    simp only [layoutResultTransition, setPositionByOriginCenter]
    split_ifs <;> rfl

/-- The result-applying phase shifts an attached clip path by the computed
translation vector exactly when the trigger is not initialization, the mode is
not clip-path, and the clip path is not absolutely positioned. -/
theorem layoutResultTransition_clipPath (g : GState) (context : LayoutContext)
    (r : LayoutResult) (it : Option (ℚ × ℚ × ℚ)) (c : ClipPathInfo)
    (hclip : g.clipPath = some c) :
    (layoutResultTransition g context r it).1.clipPath =
      if ¬context.type = "initialization" ∧ ¬g.layout = "clip-path" ∧
          c.absolutePositioned = false then
        some { c with obj := adjustObjectPosition c.obj (layoutDiff g r) }
      else some c := by
  cases it with
  | none =>
    simp only [layoutResultTransition, setPositionByOriginCenter, hclip,
      Option.map_some, Bool.not_eq_true]
    split_ifs <;> simp_all
  | some t =>
    simp only [layoutResultTransition, setPositionByOriginCenter, hclip,
      Option.map_some, Bool.not_eq_true]
    split_ifs <;> simp_all

/-- When the resolver produces a result, `_applyLayoutStrategy` runs exactly
the result-applying phase and fires the layout event carrying its translation
vector. -/
theorem applyLayoutStrategyStep_some (cosD sinD : ℚ → ℚ) (g : GState)
    (context : LayoutContext) (r : LayoutResult)
    (hres : getLayoutStrategyResult cosD sinD g g.layout g.objects context =
      some r)
    (hguard : ¬(context.type ≠ "initialization" ∧ g.firstLayoutDone = false)) :
    applyLayoutStrategyStep cosD sinD g context =
      ((layoutResultTransition g context r
          ((if context.type = "initialization" then context.options else none).map
            (fun o => (o.angle.getD 0, o.skewX.getD 0, o.skewY.getD 0)))).1,
        some ⟨context.type, r, some (layoutDiff g r)⟩) := by
  unfold applyLayoutStrategyStep
  rw [if_neg (by
    intro hc
    exact hguard ⟨hc.1, by
      cases hdone : g.firstLayoutDone
      · rfl
      · exact absurd rfl (hdone ▸ hc.2)⟩)]
  rw [hres]
  rfl

/-- C7 counterexample. On an initialization layout of a `fit-content` group
with an attached non-absolute clip path, the children are shifted by the
layout translation vector (here `(-1, 0)`) but the clip path is not (the
source withholds the clip shift on every first layout), refuting the claim
that the shift is withheld only for (clip-path mode ∧ non-initialization). -/
theorem clip_path_shift_counterexample : ¬claimClipPathAlwaysShifted := by
  intro h
  have hres : getLayoutStrategyResult cosD0 sinD0
      (mkGroup "fit-content" [obj1] (some clipC) false)
      (mkGroup "fit-content" [obj1] (some clipC) false).layout
      (mkGroup "fit-content" [obj1] (some clipC) false).objects
      (ctxOf "initialization") = some rC := by
    norm_num [getLayoutStrategyResult, prepareBoundingBox,
      prepareInitialBoundingBox, getObjectsBoundingBox, bboxStep, mkGroup,
      obj1, baseSelf, ctxOf, rC, transformPoint, GState.calcOwnMatrix,
      LObj.relCenter, Pt.add_def, Pt.sub_def]
    all_goals decide
  have hstep := applyLayoutStrategyStep_some cosD0 sinD0
    (mkGroup "fit-content" [obj1] (some clipC) false)
    (ctxOf "initialization") rC hres (fun hc => hc.1 rfl)
  have hclaim := h cosD0 sinD0
    (mkGroup "fit-content" [obj1] (some clipC) false)
    (ctxOf "initialization") _ _
    (layoutDiff (mkGroup "fit-content" [obj1] (some clipC) false) rC)
    clipC hstep rfl rfl rfl (fun hc => absurd hc.1 (by decide))
  have hcnd : ¬(¬(ctxOf "initialization").type = "initialization" ∧
      ¬(mkGroup "fit-content" [obj1] (some clipC) false).layout = "clip-path" ∧
      clipC.absolutePositioned = false) := fun hc => hc.1 rfl
  rw [layoutResultTransition_clipPath
    (mkGroup "fit-content" [obj1] (some clipC) false)
    (ctxOf "initialization") rC _ clipC rfl, if_neg hcnd] at hclaim
  have hdx : (layoutDiff (mkGroup "fit-content" [obj1] (some clipC) false) rC).x
      = -1 := by
    norm_num [layoutDiff, mkGroup, obj1, baseSelf, rC, transformPoint,
      invertTransform, GState.calcOwnMatrix, LObj.relCenter, Pt.add_def,
      Pt.sub_def]
  have hleft := congrArg
    (fun z : Option ClipPathInfo => (z.map (fun ci => ci.obj.left)).getD 0)
    hclaim
  simp only [Option.map_some, Option.getD_some, adjustObjectPosition] at hleft
  rw [hdx] at hleft
  norm_num [clipC, baseSelf] at hleft

/-- C7 amended theorem. During every layout that produces a result, the
children (unless declared already relative to the new frame) are shifted by
the translation vector `diff`; the attached clip path is shifted by that same
vector exactly when the trigger is NOT initialization, the mode is not
clip-path, and the clip path is not absolutely positioned — so the shift is
withheld on every initialization layout as well as in clip-path mode, not
only in the (clip-path ∧ non-initialization) case. -/
theorem clip_path_shift_exact (cosD sinD : ℚ → ℚ) (g : GState)
    (context : LayoutContext) (r : LayoutResult)
    (it : Option (ℚ × ℚ × ℚ)) (c : ClipPathInfo)
    (hclip : g.clipPath = some c)
    (hres : getLayoutStrategyResult cosD sinD g g.layout g.objects context =
      some r)
    (hguard : ¬(context.type ≠ "initialization" ∧ g.firstLayoutDone = false)) :
    ((applyLayoutStrategyStep cosD sinD g context).2 =
      some ⟨context.type, r, some (layoutDiff g r)⟩) ∧
    (context.objectsRelativeToGroup = false →
      (layoutResultTransition g context r it).1.objects =
        g.objects.map (fun o => adjustObjectPosition o (layoutDiff g r))) ∧
    ((layoutResultTransition g context r it).1.clipPath =
      if ¬context.type = "initialization" ∧ ¬g.layout = "clip-path" ∧
          c.absolutePositioned = false then
        some { c with obj := adjustObjectPosition c.obj (layoutDiff g r) }
      else some c) := by
  refine ⟨?_, ?_, layoutResultTransition_clipPath g context r it c hclip⟩
  · rw [applyLayoutStrategyStep_some cosD sinD g context r hres hguard]
  · intro hrel
    rw [layoutResultTransition_objects g context r it,
      if_pos (by rw [hrel]; exact Bool.false_ne_true)]

/-- Witness for the C7 amended theorem at the concrete counterexample group:
its initialization layout shifts the children but not the clip path. -/
theorem clip_path_shift_exact_witness :
    (layoutResultTransition (mkGroup "fit-content" [obj1] (some clipC) false)
        (ctxOf "initialization") rC none).1.clipPath = some clipC := by
  have := (clip_path_shift_exact cosD0 sinD0
    (mkGroup "fit-content" [obj1] (some clipC) false)
    (ctxOf "initialization") rC none clipC rfl
    (by
      norm_num [getLayoutStrategyResult, prepareBoundingBox,
        prepareInitialBoundingBox, getObjectsBoundingBox, bboxStep, mkGroup,
        obj1, baseSelf, ctxOf, rC, transformPoint, GState.calcOwnMatrix,
        LObj.relCenter, Pt.add_def, Pt.sub_def]
      all_goals decide)
    (fun hc => hc.1 rfl)).2.2
  have hcnd : ¬(¬(ctxOf "initialization").type = "initialization" ∧
      ¬(mkGroup "fit-content" [obj1] (some clipC) false).layout = "clip-path" ∧
      clipC.absolutePositioned = false) := fun hc => hc.1 rfl
  rw [this, if_neg hcnd]


/-- The inner scan finds nothing exactly when neither `self` nor the current
ancestor occurs in the other list. -/
theorem innerScan_eq_none_iff (s a : Entity) :
    ∀ l : List Entity, innerScan s a l = none ↔ s ∉ l ∧ a ∉ l := by
  intro l
  induction l with
  | nil => simp [innerScan]
  | cons x xs ih =>
    unfold innerScan
    by_cases hxs : x = s
    · subst hxs
      simp
    · rw [if_neg hxs]
      by_cases hxa : x = a
      · subst hxa
        simp
      · rw [if_neg hxa, List.mem_cons, List.mem_cons]
        cases hrec : innerScan s a xs with
        | none =>
          have h2 := ih.mp hrec
          refine ⟨fun _ => ⟨?_, ?_⟩, fun _ => rfl⟩
          · rintro (hc | hc)
            · exact hxs hc.symm
            · exact h2.1 hc
          · rintro (hc | hc)
            · exact hxa hc.symm
            · exact h2.2 hc
        | some v =>
          have hfalse : ¬(¬(s = x ∨ s ∈ xs) ∧ ¬(a = x ∨ a ∈ xs)) := by
            intro hc
            have : innerScan s a xs = none :=
              ih.mpr ⟨fun h => hc.1 (Or.inr h), fun h => hc.2 (Or.inr h)⟩
            rw [this] at hrec
            cases hrec
          cases v with
          | inl pre =>
            exact ⟨fun hc => (nomatch hc), fun hc => absurd hc hfalse⟩
          | inr pre =>
            exact ⟨fun hc => (nomatch hc), fun hc => absurd hc hfalse⟩

/-- The first-occurrence scan finds nothing exactly when the element is
absent. -/
theorem firstMatch_eq_none_iff (x : Entity) :
    ∀ l : List Entity, firstMatch x l = none ↔ x ∉ l := by
  intro l
  induction l with
  | nil => simp [firstMatch]
  | cons y ys ih =>
    unfold firstMatch
    by_cases hyx : y = x
    · subst hyx
      simp
    · rw [if_neg hyx, List.mem_cons]
      cases hrec : firstMatch x ys with
      | none =>
        have h2 := ih.mp hrec
        refine ⟨fun _ => ?_, fun _ => rfl⟩
        rintro (hc | hc)
        · exact hyx hc.symm
        · exact h2 hc
      | some p =>
        refine ⟨fun hc => (nomatch hc), fun hc => ?_⟩
        have : firstMatch x ys = none := ih.mpr (fun h => hc (Or.inr h))
        rw [this] at hrec
        cases hrec

/-- The first-occurrence scan returns the prefix before the element. -/
theorem firstMatch_append (x : Entity) :
    ∀ (p t : List Entity), x ∉ p → firstMatch x (p ++ x :: t) = some p := by
  intro p
  induction p with
  | nil => intro t _; simp [firstMatch]
  | cons y ys ih =>
    intro t hx
    have hyx : ¬(y = x) := fun h => hx (h ▸ List.mem_cons_self y ys)
    show firstMatch x (y :: (ys ++ x :: t)) = some (y :: ys)
    unfold firstMatch
    rw [if_neg hyx, ih t (fun h => hx (List.mem_cons_of_mem y h))]
    rfl

/-- When `self` occurs in the other list after a clean prefix, the interleaved
inner scan hits the self check with that prefix. -/
theorem innerScan_self_found (s a : Entity) :
    ∀ (p t : List Entity), s ∉ p → a ∉ p →
      innerScan s a (p ++ s :: t) = some (.inl p) := by
  intro p
  induction p with
  | nil =>
    intro t _ _
    simp [innerScan]
  | cons y ys ih =>
    intro t hs ha
    have hys : ¬(y = s) := fun h => hs (h ▸ List.mem_cons_self y ys)
    have hya : ¬(y = a) := fun h => ha (h ▸ List.mem_cons_self y ys)
    show innerScan s a (y :: (ys ++ s :: t)) = some (.inl (y :: ys))
    unfold innerScan
    rw [if_neg hys, if_neg hya,
      ih t (fun h => hs (List.mem_cons_of_mem y h))
        (fun h => ha (List.mem_cons_of_mem y h))]

/-- When `self` is absent from the other list, the interleaved inner scan is
the plain pair scan. -/
theorem innerScan_of_not_mem_self (s a : Entity) :
    ∀ l : List Entity, s ∉ l →
      innerScan s a l = (firstMatch a l).map Sum.inr := by
  intro l
  induction l with
  | nil => intro _; simp [innerScan, firstMatch]
  | cons x xs ih =>
    intro hs
    have hxs : ¬(x = s) := fun h => hs (h ▸ List.mem_cons_self x xs)
    unfold innerScan firstMatch
    rw [if_neg hxs]
    by_cases hxa : x = a
    · rw [if_pos hxa, if_pos hxa]
      rfl
    · rw [if_neg hxa, if_neg hxa, ih (fun h => hs (List.mem_cons_of_mem x h))]
      cases hfm : firstMatch a xs <;> rfl

/-- When no check ever fires, the outer loop runs to the end and reports
disjoint chains. -/
theorem fcaLoop_no_match (s o : Entity) (oanc : List Entity) :
    ∀ (rest pre : List Entity),
      (∀ a ∈ rest, a ≠ o ∧ innerScan s a oanc = none) →
      fcaLoop s o oanc pre rest =
        ⟨[], s :: (pre ++ rest), o :: oanc⟩ := by
  intro rest
  induction rest with
  | nil =>
    intro pre _
    unfold fcaLoop
    rw [List.append_nil]
  | cons a rest' ih =>
    intro pre hall
    obtain ⟨hao, hscan⟩ := hall a (List.mem_cons_self a rest')
    unfold fcaLoop
    rw [if_neg hao, hscan,
      ih (pre ++ [a]) (fun x hx => hall x (List.mem_cons_of_mem a hx)),
      List.append_assoc]
    rfl

/-- Conversely, an empty `common` can only come from the loop running to the
end: the result is the disjoint-chains record and no check ever fired. -/
theorem fcaLoop_common_nil (s o : Entity) (oanc : List Entity) :
    ∀ (rest pre : List Entity),
      (fcaLoop s o oanc pre rest).common = [] →
      fcaLoop s o oanc pre rest = ⟨[], s :: (pre ++ rest), o :: oanc⟩ ∧
        ∀ a ∈ rest, a ≠ o ∧ innerScan s a oanc = none := by
  intro rest
  induction rest with
  | nil =>
    intro pre _
    constructor
    · unfold fcaLoop
      rw [List.append_nil]
    · simp
  | cons a rest' ih =>
    intro pre hcom
    by_cases hao : a = o
    · exfalso
      unfold fcaLoop at hcom
      rw [if_pos hao] at hcom
      cases hcom
    · unfold fcaLoop at hcom ⊢
      rw [if_neg hao] at hcom ⊢
      revert hcom
      cases hscan : innerScan s a oanc with
      | some v =>
        intro hcom
        cases v with
        | inl pre' => simp at hcom
        | inr pre' => simp at hcom
      | none =>
        intro hcom
        obtain ⟨heq, hall⟩ := ih (pre ++ [a]) hcom
        refine ⟨heq.trans ?_, ?_⟩
        · rw [List.append_assoc]
          rfl
        · intro x hx
          rcases List.mem_cons.mp hx with hx' | hx'
          · exact hx' ▸ ⟨hao, hscan⟩
          · exact hall x hx'


/-- With `self` absent from the other ancestor list, the interleaved loop and
the spec's hoisted-check loop agree. -/
theorem fcaLoop_eq_specScanLoop (s o : Entity) (oanc : List Entity)
    (hs : s ∉ oanc) :
    ∀ (rest pre : List Entity),
      fcaLoop s o oanc pre rest = specScanLoop s o oanc pre rest := by
  intro rest
  induction rest with
  | nil => intro pre; rfl
  | cons a rest' ih =>
    intro pre
    unfold fcaLoop specScanLoop
    by_cases hao : a = o
    · rw [if_pos hao, if_pos hao]
    · rw [if_neg hao, if_neg hao, innerScan_of_not_mem_self s a oanc hs]
      cases hfm : firstMatch a oanc with
      | none => exact ih (pre ++ [a])
      | some p => rfl

/-- When the general case returns an empty `common`, neither node occurs in
the other's fork. -/
theorem findCommonAncestors_common_nil (w : World) (self other : NodeId)
    (strict : Bool) (h0 : self ≠ other)
    (hsuf : Entity.obj self ∈ w.getAncestors other strict →
      ∃ p, w.getAncestors other strict =
        p ++ Entity.obj self :: w.getAncestors self strict ∧
        Entity.obj self ∉ p)
    (hcom : (w.findCommonAncestors self other strict).common = []) :
    Entity.obj other ∉ (w.findCommonAncestors self other strict).fork ∧
      Entity.obj self ∉ (w.findCommonAncestors self other strict).otherFork := by
  unfold World.findCommonAncestors at hcom ⊢
  rw [if_neg h0] at hcom ⊢
  by_cases h2 : (w.getAncestors self strict).length = 0 ∧
      0 < (w.getAncestors other strict).length ∧
      (w.getAncestors other strict).getLast? = some (Entity.obj self)
  · rw [if_pos h2] at hcom
    simp at hcom
  · rw [if_neg h2] at hcom ⊢
    obtain ⟨heq, hall⟩ := fcaLoop_common_nil (Entity.obj self)
      (Entity.obj other) (w.getAncestors other strict)
      (w.getAncestors self strict) [] hcom
    rw [heq]
    constructor
    · intro hmem
      rcases List.mem_cons.mp hmem with he | he
      · exact h0 (Entity.obj.inj he).symm
      · rw [List.nil_append] at he
        exact (hall _ he).1 rfl
    · intro hmem
      rcases List.mem_cons.mp hmem with he | he
      · exact h0 (Entity.obj.inj he)
      · cases hanc : w.getAncestors self strict with
        | cons a anc' =>
          have hain : a ∈ w.getAncestors self strict := by
            rw [hanc]; exact List.mem_cons_self a anc'
          have hnone := (hall a hain).2
          exact ((innerScan_eq_none_iff (Entity.obj self) a
            (w.getAncestors other strict)).mp hnone).1 he
        | nil =>
          obtain ⟨p, hp, hnp⟩ := hsuf he
          rw [hanc] at hp
          apply h2
          refine ⟨by rw [hanc]; rfl, ?_, ?_⟩
          · rw [hp]
            simp
          · rw [hp]
            simp

/-- C8 theorem. Under the real-world chain conditions (the other node's
ancestor chain is duplicate-free, never contains the other node itself, and
once `self` occurs in it the remainder is `self`'s own chain),
`findCommonAncestors` behaves exactly as the spec describes it: equal to the
variant with the "is self one of other's ancestors" check hoisted before the
nested double loop, whose double loop returns the first matching pair in
self's scan order; and when no match exists at all the result is an empty
`common` with each fork the node's full chain including the node itself. -/
theorem findCommonAncestors_spec (w : World) (self other : NodeId)
    (strict : Bool) :
    ((Entity.obj self ∈ w.getAncestors other strict →
        ∃ p, w.getAncestors other strict =
          p ++ Entity.obj self :: w.getAncestors self strict ∧
          Entity.obj self ∉ p) →
      (w.getAncestors other strict).Nodup →
      Entity.obj other ∉ w.getAncestors other strict →
      w.findCommonAncestors self other strict =
        specFindCommonAncestors w self other strict) ∧
    (self ≠ other →
      Entity.obj self ∉ w.getAncestors other strict →
      Entity.obj other ∉ w.getAncestors self strict →
      (∀ a ∈ w.getAncestors self strict, a ∉ w.getAncestors other strict) →
      w.findCommonAncestors self other strict =
        ⟨[], Entity.obj self :: w.getAncestors self strict,
          Entity.obj other :: w.getAncestors other strict⟩) := by
  constructor
  · intro hsuf hnd hno
    unfold World.findCommonAncestors specFindCommonAncestors
    by_cases h0 : self = other
    · rw [if_pos h0, if_pos h0]
    · rw [if_neg h0, if_neg h0]
      by_cases h2 : (w.getAncestors self strict).length = 0 ∧
          0 < (w.getAncestors other strict).length ∧
          (w.getAncestors other strict).getLast? = some (Entity.obj self)
      · rw [if_pos h2, if_pos h2]
      · rw [if_neg h2, if_neg h2]
        by_cases hmem : Entity.obj self ∈ w.getAncestors other strict
        · obtain ⟨p, hp, hnp⟩ := hsuf hmem
          have hfm : firstMatch (Entity.obj self)
              (w.getAncestors other strict) = some p := by
            rw [hp]
            exact firstMatch_append (Entity.obj self) p _ hnp
          rw [hfm]
          cases hanc : w.getAncestors self strict with
          | nil =>
            exfalso
            apply h2
            rw [hanc] at hp
            refine ⟨by rw [hanc]; rfl, ?_, ?_⟩
            · rw [hp]; simp
            · rw [hp]; simp
          | cons a anc' =>
            have hain : a ∈ w.getAncestors other strict := by
              rw [hp, hanc]
              exact List.mem_append_right _
                (List.mem_cons_of_mem _ (List.mem_cons_self a anc'))
            have hao : ¬(a = Entity.obj other) := fun he => hno (he ▸ hain)
            rw [hp, hanc] at hnd
            have hsplit := List.nodup_append.mp hnd
            have hanotp : a ∉ p := by
              intro hap
              exact hsplit.2.2 hap
                (List.mem_cons_of_mem _ (List.mem_cons_self a anc'))
            have hscan : innerScan (Entity.obj self) a
                (w.getAncestors other strict) = some (.inl p) := by
              rw [hp, hanc]
              exact innerScan_self_found (Entity.obj self) a p (a :: anc')
                hnp hanotp
            unfold fcaLoop
            rw [if_neg hao, hscan]
            rfl
        · rw [(firstMatch_eq_none_iff (Entity.obj self)
            (w.getAncestors other strict)).mpr hmem]
          exact fcaLoop_eq_specScanLoop (Entity.obj self) (Entity.obj other)
            (w.getAncestors other strict) hmem
            (w.getAncestors self strict) []
  · intro h0 hsno hono hdisj
    unfold World.findCommonAncestors
    rw [if_neg h0]
    rw [if_neg (by
      rintro ⟨-, -, hc3⟩
      exact hsno (List.mem_of_getLast?_eq_some hc3))]
    exact fcaLoop_no_match (Entity.obj self) (Entity.obj other)
      (w.getAncestors other strict) (w.getAncestors self strict) []
      (fun a ha => ⟨fun he => hono (he ▸ ha),
        (innerScan_eq_none_iff (Entity.obj self) a
          (w.getAncestors other strict)).mpr ⟨hsno, hdisj a ha⟩⟩)

/-- Witness for the C8 theorem at a concrete world: two isolated nodes have
empty chains, the source agrees with the hoisted-check spec variant, and the
disjoint case returns full chains. -/
theorem findCommonAncestors_spec_witness :
    nestedWorld.findCommonAncestors 3 4 false =
        specFindCommonAncestors nestedWorld 3 4 false ∧
      nestedWorld.findCommonAncestors 3 4 false =
        ⟨[], [Entity.obj 3], [Entity.obj 4]⟩ :=
  ⟨(findCommonAncestors_spec nestedWorld 3 4 false).1
      (fun hm => absurd hm (by decide)) (by decide) (by decide),
   (findCommonAncestors_spec nestedWorld 3 4 false).2 (by decide)
      (by decide) (by decide) (by decide)⟩

/-- C9 theorem. `isInFrontOf` returns `undefined` exactly for identical nodes
or an empty common-ancestor chain (given the real-world chain condition on
the two ancestor lists); returns `true` when `other` appears in `self`'s
fork and `false` in the symmetric case; otherwise compares the indices of the
two fork heads in the first common ancestor's child list, the higher index
(painted later) in front — in particular for siblings inserted in order
`[X, Y]`, `Y.isInFrontOf(X)` is true and `X.isInFrontOf(Y)` is false. -/
theorem isInFrontOf_characterization (w : World) (self other : NodeId)
    (hsuf : Entity.obj self ∈ w.getAncestors other false →
      ∃ p, w.getAncestors other false =
        p ++ Entity.obj self :: w.getAncestors self false ∧
        Entity.obj self ∉ p) :
    (w.isInFrontOf self other = none ↔
      self = other ∨ (w.findCommonAncestors self other false).common = []) ∧
    (self ≠ other →
      Entity.obj other ∈ (w.findCommonAncestors self other false).fork →
      w.isInFrontOf self other = some true) ∧
    (self ≠ other →
      Entity.obj other ∉ (w.findCommonAncestors self other false).fork →
      Entity.obj self ∈ (w.findCommonAncestors self other false).otherFork →
      w.isInFrontOf self other = some false) ∧
    (∀ fc rest, self ≠ other →
      Entity.obj other ∉ (w.findCommonAncestors self other false).fork →
      Entity.obj self ∉ (w.findCommonAncestors self other false).otherFork →
      (w.findCommonAncestors self other false).common = fc :: rest →
      w.isInFrontOf self other = some (decide (-1 <
          w.entityIndexIn fc
            (w.findCommonAncestors self other false).fork.getLast? ∧
        w.entityIndexIn fc
            (w.findCommonAncestors self other false).otherFork.getLast? <
          w.entityIndexIn fc
            (w.findCommonAncestors self other false).fork.getLast?))) ∧
    (sibWorld.isInFrontOf 2 1 = some true ∧
      sibWorld.isInFrontOf 1 2 = some false) := by
  refine ⟨⟨?_, ?_⟩, ?_, ?_, ?_, by decide⟩
  · intro hnone
    by_cases h0 : self = other
    · exact Or.inl h0
    · right
      simp only [World.isInFrontOf] at hnone
      rw [if_neg h0] at hnone
      by_cases hf : Entity.obj other ∈ (w.findCommonAncestors self other false).fork
      · rw [if_pos hf] at hnone
        cases hnone
      · rw [if_neg hf] at hnone
        by_cases hs : Entity.obj self ∈
            (w.findCommonAncestors self other false).otherFork
        · rw [if_pos hs] at hnone
          cases hnone
        · rw [if_neg hs] at hnone
          cases hh : (w.findCommonAncestors self other false).common.head? with
          | none => exact List.head?_eq_none_iff.mp hh
          | some fc =>
            rw [hh] at hnone
            cases hnone
  · intro h
    rcases h with h0 | hcom
    · simp only [World.isInFrontOf]
      rw [if_pos h0]
    · by_cases h0 : self = other
      · simp only [World.isInFrontOf]
        rw [if_pos h0]
      · obtain ⟨hf, hs⟩ :=
          findCommonAncestors_common_nil w self other false h0 hsuf hcom
        simp only [World.isInFrontOf]
        rw [if_neg h0, if_neg hf, if_neg hs, hcom]
        rfl
  · intro h0 hf
    simp only [World.isInFrontOf]
    rw [if_neg h0, if_pos hf]
  · intro h0 hf hs
    simp only [World.isInFrontOf]
    rw [if_neg h0, if_neg hf, if_pos hs]
  · intro fc rest h0 hf hs hcom
    simp only [World.isInFrontOf]
    rw [if_neg h0, if_neg hf, if_neg hs, hcom]
    rfl

/-- Witness for the C9 theorem: the sibling scenario in the concrete sibling
world, with the chain hypothesis discharged. -/
theorem isInFrontOf_characterization_witness :
    sibWorld.isInFrontOf 2 1 = some true ∧
      sibWorld.isInFrontOf 1 2 = some false :=
  (isInFrontOf_characterization sibWorld 2 1
    (fun hm => absurd hm (by decide))).2.2.2.2

end Fabric